import Mathlib

/-!
Verification development for the pavia score-rewriting tool (`pavia.py`).

The program rewrites a MuseScore `.mscx` XML document.  We give a shallow
embedding: XML elements become the inductive type `E` (tag, attributes,
optional text, children), `lxml` mutation becomes pure tree rewriting, and
Python exceptions (KeyError, IndexError, ValueError, assert) become `none`
in the `Option` monad.  Python `set` values are embedded as duplicate-free
lists built with `sinsert` (the code only uses membership, `max` and
`sorted`, all order-independent), and Python `dict` as an association list
where the last binding wins (`dget`).
-/

/-- An XML element: tag, attributes, optional text, children (document order). -/
inductive E where
| mk : String → List (String × String) → Option String → List E → E

def E.tag : E → String
| .mk t _ _ _ => t

def E.attrs : E → List (String × String)
| .mk _ a _ _ => a

def E.text : E → Option String
| .mk _ _ tx _ => tx

def E.children : E → List E
| .mk _ _ _ cs => cs

/-- Induction over an element and (pointwise) its children. -/
theorem E.myInduction {motive : E → Prop}
    (h : ∀ t a tx cs, (∀ c ∈ cs, motive c) → motive (.mk t a tx cs)) : ∀ e, motive e
| .mk t a tx cs => h t a tx cs (fun c hc => E.myInduction h c)
termination_by e => sizeOf e
decreasing_by
  have := List.sizeOf_lt_of_mem hc
  simp only [E.mk.sizeOf_spec]
  omega

/-! ### Python primitives -/

def digitsAux : List Char → ℕ → Option ℕ
| [], acc => some acc
| c :: cs, acc => if c.isDigit then digitsAux cs (acc * 10 + (c.toNat - 48)) else none

def pyDigits : List Char → Option ℕ
| [] => none
| l => digitsAux l 0

/-- Python `int(...)` on a decimal string: optional sign, then digits. -/
def pyIntCore (l : List Char) : Option ℤ :=
  match l with
  | '-' :: rest => (pyDigits rest).map (fun n => -(n : ℤ))
  | _ => (pyDigits l).map (fun n => (n : ℤ))

/-- Python `int(...)` on the text of a node (None or a non-integer raises). -/
def pyInt (s : Option String) : Option ℤ := s.bind (fun t => pyIntCore t.data)

/-- Python `str.lower()`; the names in the tonal-name table only contain
ASCII letters and the caseless signs for flat and sharp, on which this
agrees with Python. -/
def pyLower (s : String) : String := ⟨s.data.map Char.toLower⟩

def splitNlAux : List Char → List Char → List String
| [], cur => [⟨cur.reverse⟩]
| c :: cs, cur => if c = '\n' then ⟨cur.reverse⟩ :: splitNlAux cs [] else splitNlAux cs (c :: cur)

/-- The lines of a string (count of newline-separated segments). -/
def lineCount (s : String) : ℕ := (splitNlAux s.data []).length

/-- Python list indexing `l[i]` with negative-index wrap-around; out of
range raises (`none`). -/
def pyIndex (l : List String) (i : ℤ) : Option String :=
  if 0 ≤ i then l.get? i.toNat
  else if 0 ≤ i + l.length then l.get? (i + l.length).toNat
  else none

/-- Python `set.add`: duplicate-free list insertion. -/
def sinsert (p : ℤ) (l : List ℤ) : List ℤ := if p ∈ l then l else l ++ [p]

/-- Python `max` over a set (raises on an empty set). -/
def listMax : List ℤ → Option ℤ
| [] => none
| x :: xs =>
  match listMax xs with
  | none => some x
  | some m => some (max x m)

/-- Python `sorted(list(s), reverse=True)` for a duplicate-free list. -/
def sortDesc (l : List ℤ) : List ℤ := (List.insertionSort (· ≤ ·) l).reverse

/-- Python dict lookup where the last assignment wins (`d[k] = v` appends
`(k, v)`; `d[k]` raises when no binding exists). -/
def dget (l : List (ℤ × ℤ)) (k : ℤ) : Option ℤ := l.reverse.lookup k

/-! ### Fixed tables from the source -/

def TPC_NAMES : List String :=
  ["C♭♭","G♭♭","D♭♭","A♭♭","E♭♭","B♭♭","F♭","C♭","G♭",
   "D♭","A♭","E♭","B♭","F","C","G","D","A","E","B",
   "F♯","C♯","G♯","D♯","A♯","E♯","B♯","F♯♯","C♯♯",
   "G♯♯","D♯♯","A♯♯","E♯♯","B♯♯","F♭♭"]

def CHORD_INTERVALS_BY_MARKING : List (String × List ℤ) :=
  [("M", [4, 7]), ("m", [3, 7]), ("7", [4, 10]), ("d", [3, 9])]

def CHORD_SUFFIX_BY_MARKING : List (String × String) :=
  [("M", ""), ("m", "m"), ("7", "⁷"), ("d", "°")]

/-! ### The register-raising loop

`while pitch <= 50: pitch += 12` from `Chord.extra_pitches`, given fuel
`(51 - p).toNat`, which bounds the number of iterations (each iteration
increases the value by 12 ≥ 1). -/

def raiseLoop : ℕ → ℤ → ℤ
| 0, p => p
| n + 1, p => if p ≤ 50 then raiseLoop n (p + 12) else p

def raisePitch (p : ℤ) : ℤ := raiseLoop (51 - p).toNat p

theorem raiseLoop_spec (n : ℕ) : ∀ p : ℤ, (51 - p).toNat ≤ n →
    50 < raiseLoop n p ∧ raiseLoop n p % 12 = p % 12 ∧
    (p ≤ 50 → raiseLoop n p ≤ 62) ∧ (50 < p → raiseLoop n p = p) := by
  induction n with
  | zero =>
    intro p hp
    have h51 : 51 ≤ p := by omega
    simp only [raiseLoop]
    refine ⟨by omega, trivial, by omega, fun _ => trivial⟩
  | succ n ih =>
    intro p hp
    by_cases h : p ≤ 50
    · have hfuel : (51 - (p + 12)).toNat ≤ n := by omega
      have hrec := ih (p + 12) hfuel
      have hmod : (p + 12) % 12 = p % 12 := by omega
      simp only [raiseLoop, if_pos h]
      refine ⟨hrec.1, by rw [hrec.2.1, hmod], fun _ => ?_, by omega⟩
      by_cases h12 : p + 12 ≤ 50
      · exact hrec.2.2.1 h12
      · rw [hrec.2.2.2 (by omega)]; omega
    · simp only [raiseLoop, if_neg h]
      refine ⟨by omega, trivial, by omega, fun _ => trivial⟩

theorem raisePitch_spec (p : ℤ) (h : p ≤ 50) :
    50 < raisePitch p ∧ raisePitch p % 12 = p % 12 ∧ raisePitch p ≤ 62 := by
  have := raiseLoop_spec (51 - p).toNat p le_rfl
  exact ⟨this.1, this.2.1, this.2.2.1 h⟩

/-! ### The Chord model (`class Chord`) -/

/-- The state computed by `Chord.__init__` from a `<Chord>` node. -/
structure Chord where
  chord_intervals : List ℤ
  chord_suffix : String
  pitches : List ℤ
  pitch_classes : List ℤ
  tpc_by_pitch : List (ℤ × ℤ)
  marking_nodes : List E

/-- The `tpc` children of a list of siblings, as texts
(`pitch_node.xpath("../tpc")`). -/
def tpcTexts (cs : List E) : List (Option String) :=
  (cs.filter (fun c => c.tag == "tpc")).map E.text

mutual
/-- Text children of `Fingering` descendants, document order
(`chord_node.xpath(".//Fingering/text")`); `d` is the depth of the node,
so its own children are only matched when it is a strict descendant. -/
def fingTexts (d : ℕ) : E → List E
| .mk s _ _ cs => fingTextsL (s == "Fingering" && decide (1 ≤ d)) d cs
def fingTextsL (isF : Bool) (d : ℕ) : List E → List E
| [] => []
| c :: cs =>
  (if isF && c.tag == "text" then [c] else []) ++ fingTexts (d + 1) c ++ fingTextsL isF d cs
end

mutual
/-- For every `pitch` descendant in document order
(`chord_node.findall(".//pitch")`): its text together with the texts of
the `tpc` children of its parent (`pitch_node.xpath("../tpc")`). -/
def pitchEntriesE : E → List (Option String × List (Option String))
| .mk _ _ _ cs => pitchEntriesL (tpcTexts cs) cs
def pitchEntriesL (ts : List (Option String)) : List E → List (Option String × List (Option String))
| [] => []
| c :: cs =>
  (if c.tag == "pitch" then [(c.text, ts)] else []) ++ pitchEntriesE c ++ pitchEntriesL ts cs
end

/-- One step of the marking loop of `Chord.__init__`: both table lookups,
a later recognized marking overwriting an earlier one, every
suffix-recognized marking node recorded. -/
def markStep (st : List ℤ × String × List E) (n : E) : List ℤ × String × List E :=
  let ivs := match n.text.bind (fun s => CHORD_INTERVALS_BY_MARKING.lookup s) with
    | some l => l
    | none => st.1
  match n.text.bind (fun s => CHORD_SUFFIX_BY_MARKING.lookup s) with
  | some sfx => (ivs, sfx, st.2.2 ++ [n])
  | none => (ivs, st.2.1, st.2.2)

/-- One step of the pitch loop of `Chord.__init__` (`int(...)` may raise). -/
def pitchStep (st : List ℤ × List ℤ × List (ℤ × ℤ)) (pe : Option String × List (Option String)) :
    Option (List ℤ × List ℤ × List (ℤ × ℤ)) := do
  let p ← pyInt pe.1
  let ts ← pe.2.mapM pyInt
  pure (sinsert p st.1, sinsert (p % 12) st.2.1, st.2.2 ++ ts.map (fun t => (p, t)))

/-- `Chord.__init__` on a chord node. -/
def Chord.ofNode (g : E) : Option Chord := do
  let m := (fingTexts 0 g).foldl markStep ([], "", [])
  let st ← (pitchEntriesE g).foldlM pitchStep ([], [], [])
  pure ⟨m.1, m.2.1, st.1, st.2.1, st.2.2, m.2.2⟩

/-- `Chord.root_pitch`: `max(self.pitches)`, raising on an empty set. -/
def Chord.root_pitch (c : Chord) : Option ℤ := listMax c.pitches

/-- `Chord.root_tpc`. -/
def Chord.root_tpc (c : Chord) : Option ℤ := c.root_pitch.bind (dget c.tpc_by_pitch)

/-- The body of the `annotations` loop for one pitch: look up the tonal
pitch class (KeyError when absent), index the name table (IndexError when
out of range), and lower-case and suffix the root's line when a chord
marking was recognized. -/
def annLine (c : Chord) (p : ℤ) : Option String := do
  let tpc ← dget c.tpc_by_pitch p
  let name ← pyIndex TPC_NAMES tpc
  pure (if c.chord_intervals ≠ [] ∧ c.root_pitch = some p
    then pyLower name ++ c.chord_suffix else name)

/-- `Chord.annotations`: tonal names of the pitches in descending order,
joined with newline into a single element; no elements when the pitch set
is empty. -/
def Chord.annotations (c : Chord) : Option (List String) := do
  let names ← (sortDesc c.pitches).mapM (annLine c)
  pure (if 0 < names.length then [String.intercalate "\n" names] else [])

/-- The body of the `extra_pitches` loop for one interval: `self.root_pitch`
is re-read on every iteration, so an empty pitch set raises here. -/
def epStep (c : Chord) (acc : List ℤ) (iv : ℤ) : Option (List ℤ) := do
  let r ← c.root_pitch
  let p := raisePitch ((r + iv) % 12)
  pure (if p ∈ c.pitches then acc else acc ++ [p])

/-- `Chord.extra_pitches`: for each interval, fold the pitch class of
`root + interval` into the low register and emit it unless already present. -/
def Chord.extra_pitches (c : Chord) : Option (List ℤ) :=
  c.chord_intervals.foldlM (epStep c) []

/-- The `<Note><pitch>p</pitch></Note>` node built by `extra_note_nodes`. -/
def noteNode (p : ℤ) : E := .mk "Note" [] none [.mk "pitch" [] (some (toString p)) []]

/-- `Chord.extra_note_nodes`. -/
def Chord.extra_note_nodes (c : Chord) : Option (List E) :=
  c.extra_pitches.map (List.map noteNode)

/-- The `<StaffText>` node built by `extra_stafftext_nodes`. -/
def staffTextNode (s : String) : E :=
  .mk "StaffText" [] none [.mk "placement" [] (some "below") [], .mk "text" [] (some s) []]

/-- `Chord.extra_stafftext_nodes`. -/
def Chord.extra_stafftext_nodes (c : Chord) : Option (List E) :=
  c.annotations.map (List.map staffTextNode)

/-! ### The per-chord body of `GermanTransform.modify` -/

/-- Whether a `Fingering/text` node carries a recognized marking
(membership in `CHORD_SUFFIX_BY_MARKING`, the condition under which
`Chord.__init__` records the node for removal). -/
def isMarkingText (tx : Option String) : Bool :=
  match tx.bind (fun s => CHORD_SUFFIX_BY_MARKING.lookup s) with
  | some _ => true
  | none => false

mutual
/-- Removal of the recognized marking nodes
(`marking_node.getparent().remove(marking_node)`): drop every `text` child
of a `Fingering` strict descendant whose text is a recognized marking. -/
def rmMarkIn : E → E
| .mk s a tx cs => .mk s a tx (rmMarkL s cs)
def rmMarkL (s : String) : List E → List E
| [] => []
| c :: cs =>
  (if s == "Fingering" && c.tag == "text" && isMarkingText c.text then [] else [rmMarkIn c])
    ++ rmMarkL s cs
end

/-- Removal applied below a chord node: the node itself is never a
matched `Fingering` (the query `.//Fingering/text` skips `self`). -/
def rmMarkTop (g : E) : E := .mk g.tag g.attrs g.text (g.children.map rmMarkIn)

def appendChildren (g : E) (ns : List E) : E := .mk g.tag g.attrs g.text (g.children ++ ns)

/-- The body of the inner loop of `GermanTransform.modify` for one chord
node: build the chord, append the extra note nodes, remove the marking
nodes, and return the staff-text nodes to be inserted immediately before
the chord together with the rewritten chord node. -/
def germanChordStep (g : E) : Option (List E × E) := do
  let c ← Chord.ofNode g
  let notes ← c.extra_note_nodes
  let g2 := rmMarkTop (appendChildren g notes)
  let sts ← c.extra_stafftext_nodes
  pure (sts, g2)

/-! ### Measure alignment (`Measure.measures`) -/

mutual
/-- The nodes matched by the query `.//A/B` from the root in document
order: `B`-tagged children of `A`-tagged strict descendants.  `d` is the
depth of the node being visited. -/
def dcNodes (A B : String) (d : ℕ) : E → List E
| .mk t _ _ cs => dcNodesL A B (t == A && decide (1 ≤ d)) d cs
def dcNodesL (A B : String) (isA : Bool) (d : ℕ) : List E → List E
| [] => []
| c :: cs =>
  (if isA && c.tag == B then [c] else []) ++ dcNodes A B (d + 1) c ++ dcNodesL A B isA d cs
end

/-- Python `zip(*lists)`: transpose truncated to the shortest list (empty
when there are no lists, like `zip()` with no arguments). -/
def zipAll {α : Type} : List (List α) → List (List α)
| [] => []
| [l] => l.map (fun x => [x])
| l :: ls => ((zipAll ls).zip l).map (fun p => p.2 :: p.1)

/-- The per-staff measure lists: for each `.//Score/Staff` node, its
`Measure`-tagged children (`staff_node.xpath("./Measure")`). -/
def measureLists (root : E) : List (List E) :=
  (dcNodes "Score" "Staff" 0 root).map (fun s => s.children.filter (fun c => c.tag == "Measure"))

/-- `Measure.measures`: aligned measure groups, one tuple of same-index
measure nodes per common index. -/
def measuresOf (root : E) : List (List E) := zipAll (measureLists root)

/-! ### `CondensedTransform.expand_one_measure` -/

mutual
/-- `scrub(node, ".//Note")`-style removal of every `t`-tagged strict
descendant (the node itself is not matched by `.//`). -/
def scrubAll (t : String) : E → E
| .mk s a tx cs => .mk s a tx (scrubAllL t cs)
def scrubAllL (t : String) : List E → List E
| [] => []
| c :: cs => (if c.tag == t then [] else [scrubAll t c]) ++ scrubAllL t cs
end

/-- `Measure.voice` padding: append empty `<voice>` children until there
are at least 4 (`for _ in range(4-n): etree.SubElement(measure_node, "voice")`). -/
def voicePad (m : E) : E :=
  let k := (m.children.filter (fun c => c.tag == "voice")).length
  .mk m.tag m.attrs m.text (m.children ++ List.replicate (4 - k) (.mk "voice" [] none []))

/-- The `j`-th `voice`-tagged child (`measure_node.xpath("./voice")[j]`). -/
def nthVoice (m : E) (j : ℕ) : Option E :=
  (m.children.filter (fun c => c.tag == "voice")).get? j

/-- Replace the `j`-th `voice`-tagged child of a measure node. -/
def updVoiceL (j : ℕ) (f : E → E) : List E → List E
| [] => []
| c :: cs =>
  if c.tag == "voice" then
    match j with
    | 0 => f c :: cs
    | j + 1 => c :: updVoiceL j f cs
  else c :: updVoiceL j f cs

def updVoice (m : E) (j : ℕ) (f : E → E) : E :=
  .mk m.tag m.attrs m.text (updVoiceL j f m.children)

/-- The invisible rest clone built for one source child: deep copy, scrub
all `Note` descendants, retag as `Rest`, append `<visible>0</visible>`. -/
def dummyRest (c : E) : E :=
  let d := scrubAll "Note" c
  .mk "Rest" d.attrs d.text (d.children ++ [.mk "visible" [] (some "0") []])

/-- The `<offset x="0" y="3.7"/>` node appended to each synthesized
staff-text in the condensed layout. -/
def offsetNode : E := .mk "offset" [("x", "0"), ("y", "3.7")] none []

/-- The body of the `expand_one_measure` loop for one `./Chord | ./Rest`
child of the source voice: the staff-text nodes with their offsets (for a
chord) are inserted immediately before the appended invisible rest clone. -/
def ciStep (acc : List E) (it : E) : Option (List E) := do
  let sts ← if it.tag == "Chord" then do
      let c ← Chord.ofNode it
      let sts ← c.extra_stafftext_nodes
      pure (sts.map (fun st => E.mk st.tag st.attrs st.text (st.children ++ [offsetNode])))
    else pure []
  pure (acc ++ sts ++ [dummyRest it])

/-- The children appended to the destination voice: for each
`./Chord | ./Rest` child of the source voice, the staff-text nodes (for a
chord) followed by the invisible rest clone. -/
def expandItems (items : List E) : Option (List E) :=
  items.foldlM ciStep []

/-- `CondensedTransform.expand_one_measure` on one aligned measure group
(the list of per-staff measure nodes): voice slot 0 of staff index 1 is
the source, voice slot 3 of staff index 0 the destination. -/
def expand_one_measure (m : List E) : Option (List E) := do
  let s1 ← m.get? 1
  let m1 := voicePad s1
  let src ← nthVoice m1 0
  let s0 ← m.get? 0
  let m0 := voicePad s0
  let items := src.children.filter (fun c => c.tag == "Chord" || c.tag == "Rest")
  let newItems ← expandItems items
  let m0 := updVoice m0 3 (fun v => E.mk v.tag v.attrs v.text (v.children ++ newItems))
  pure ((m.set 1 m1).set 0 m0)

/-! ### The per-file dispatcher (`Transform.process`, `MscxTransform.process`,
`MultiTransform.process`)

The archive and tree collaborators are out of scope for the program; the
parse and serialize functions are parameters. -/

/-- An `MscxTransform` subclass is determined by its `modify` method. -/
structure MscxT where
  modify : E → Option E

/-- Python `path.endswith(sfx)`. -/
def pyEndsWith (path sfx : String) : Bool := sfx.data.isSuffixOf path.data

/-- `MscxTransform.process`: non-`.mscx` members pass through unchanged;
the `.mscx` member is parsed, modified, and serialized. -/
def MscxT.process (parse : List ℕ → Option E) (ser : E → List ℕ)
    (t : MscxT) (path : String) (content : List ℕ) : Option (List ℕ) :=
  if pyEndsWith path ".mscx" then (parse content).bind (fun root => (t.modify root).map ser)
  else some content

/-- `MultiTransform.process`: apply each transform in sequence, threading
the content (a raised exception aborts the file). -/
def multiProcess (parse : List ℕ → Option E) (ser : E → List ℕ)
    (ts : List MscxT) (path : String) (content : List ℕ) : Option (List ℕ) :=
  ts.foldl (fun acc t => acc.bind (t.process parse ser path)) (some content)

/-! ### Paths into the tree

`lxml` mutates nodes in place; we address nodes by their path of child
indices from the root and rewrite the tree at a path. -/

/-- The node at a path of child indices. -/
def getAt : E → List ℕ → Option E
| e, [] => some e
| e, i :: p => (e.children.get? i).bind (fun c => getAt c p)

/-- Replace the element at an index (out of range leaves the list as is). -/
def listModify {α : Type} : List α → ℕ → (α → α) → List α
| [], _, _ => []
| a :: l, 0, f => f a :: l
| a :: l, n + 1, f => a :: listModify l n f

/-- Insert an element at an index. -/
def insIdx {α : Type} : List α → ℕ → α → List α
| l, 0, x => x :: l
| [], _ + 1, x => [x]
| a :: l, n + 1, x => a :: insIdx l n x

mutual
/-- Paths of the nodes matched by `.//A/B` from the root, in document
order; `p` is the (reversed-free) path of the node being visited and the
flag says whether that node is an `A`-tagged strict descendant. -/
def dcPaths (A B : String) (p : List ℕ) : E → List (List ℕ)
| .mk t _ _ cs => dcPathsL A B (t == A && decide (p ≠ [])) p 0 cs
def dcPathsL (A B : String) (isA : Bool) (p : List ℕ) (i : ℕ) : List E → List (List ℕ)
| [] => []
| c :: cs =>
  (if isA && c.tag == B then [p ++ [i]] else []) ++ dcPaths A B (p ++ [i]) c
    ++ dcPathsL A B isA p (i + 1) cs
end

/-- Insert a new node immediately after the node at a (non-root) path
(`src_node.addnext(tgt_node)`). -/
def insertAfterAt : E → List ℕ → E → Option E
| _, [], _ => none
| .mk t a tx cs, [i], x =>
  if i < cs.length then some (.mk t a tx (insIdx cs (i + 1) x)) else none
| .mk t a tx cs, i :: j :: p, x =>
  (cs.get? i).bind (fun c => (insertAfterAt c (j :: p) x).map (fun c2 => .mk t a tx (cs.set i c2)))

/-- Append a child to the node at a path; a dangling path leaves the tree
unchanged (an append to a node already detached from the tree is invisible
in the serialized output). -/
def appendChildAt : E → List ℕ → E → E
| e, [], x => .mk e.tag e.attrs e.text (e.children ++ [x])
| .mk t a tx cs, i :: p, x => .mk t a tx (listModify cs i (fun c => appendChildAt c p x))

/-! ### `CopyStaffTransform` -/

/-- Python `elem.attrib[k]` (first binding; XML attributes are unique). -/
def attrGet (e : E) (k : String) : Option String := e.attrs.lookup k

/-- Python `elem.attrib[k] = v`. -/
def setAttrL (k v : String) : List (String × String) → List (String × String)
| [] => [(k, v)]
| (k2, v2) :: rest => if k2 == k then (k, v) :: rest else (k2, v2) :: setAttrL k v rest

def setAttr (e : E) (k v : String) : E := .mk e.tag (setAttrL k v e.attrs) e.text e.children

/-- One half of `CopyStaffTransform.modify` (the code repeats the same
block for `.//Part/Staff` and `.//Score/Staff`): index the `src`-th staff
(IndexError), check its `id` attribute (KeyError/ValueError/assert), check
the staff count (assert), then insert a deep copy relabelled `tgt+1`
immediately after the source. -/
def copyHalf (A : String) (src tgt : ℕ) (root : E) : Option E := do
  let pth ← (dcPaths A "Staff" [] root).get? src
  let n ← getAt root pth
  let idv ← pyInt (attrGet n "id")
  if idv = (src : ℤ) + 1 then
    if (dcPaths A "Staff" [] root).length = tgt then
      insertAfterAt root pth (setAttr n "id" (toString ((tgt : ℤ) + 1)))
    else none
  else none

/-- `CopyStaffTransform.modify`: the Part-staff half, then the Score-staff
half on the already-mutated tree. -/
def copyStaffModify (src tgt : ℕ) (root : E) : Option E :=
  (copyHalf "Part" src tgt root).bind (copyHalf "Score" src tgt)

/-! ### `FixBrackets` -/

mutual
/-- `scrub(root, ".//Part/Staff/<t>")`: remove every `t`-tagged child of a
`.//Part/Staff` match.  The flag says whether the node being visited is
itself such a match (a `Staff`-tagged child of an `A`-tagged strict
descendant); `d` is its depth. -/
def scrubPS (t : String) (im : Bool) (d : ℕ) : E → E
| .mk s a tx cs => .mk s a tx (scrubPSL t im (s == "Part" && decide (1 ≤ d)) d cs)
def scrubPSL (t : String) (im isPart : Bool) (d : ℕ) : List E → List E
| [] => []
| c :: cs =>
  (if im && c.tag == t then []
   else [scrubPS t (isPart && c.tag == "Staff") (d + 1) c]) ++ scrubPSL t im isPart d cs
end

def bracketNode (n : ℕ) : E :=
  .mk "bracket" [("type", "1"), ("span", toString n), ("col", "0")] none []

def barLineSpanNode : E := .mk "barLineSpan" [] (some "1") []

/-- `FixBrackets.modify`: capture the `.//Part/Staff` nodes, scrub all
their `barLineSpan` and `bracket` children, append a bracket spanning all
staves to the first staff, and append a `barLineSpan` marker to every
staff but the last. -/
def fixBracketsModify (root : E) : E :=
  let staffPaths := dcPaths "Part" "Staff" [] root
  let n := staffPaths.length
  let r1 := scrubPS "barLineSpan" false 0 root
  let r2 := scrubPS "bracket" false 0 r1
  let r3 := (staffPaths.take 1).foldl (fun r p => appendChildAt r p (bracketNode n)) r2
  (staffPaths.dropLast).foldl (fun r p => appendChildAt r p barLineSpanNode) r3

mutual
/-- The number of `t`-tagged elements in the whole subtree. -/
def countTag (t : String) : E → ℕ
| .mk s _ _ cs => (if s == t then 1 else 0) + countTagL t cs
def countTagL (t : String) : List E → ℕ
| [] => 0
| c :: cs => countTag t c + countTagL t cs
end

mutual
/-- Well-placedness of `t`-tagged markers: every `t`-tagged element is a
childless child of a `.//Part/Staff` match.  `pm` says whether the parent
of the node being visited is such a match, `im` whether the node itself
is, `d` is its depth. -/
def strayOK (t : String) (pm im : Bool) (d : ℕ) : E → Bool
| .mk s _ _ cs =>
  (if s == t then pm && cs.isEmpty else true) &&
    strayOKL t im (s == "Part" && decide (1 ≤ d)) d cs
def strayOKL (t : String) (im isPart : Bool) (d : ℕ) : List E → Bool
| [] => true
| c :: cs => strayOK t im (isPart && c.tag == "Staff") (d + 1) c && strayOKL t im isPart d cs
end

/-- Along the path every proper ancestor of the target is not itself a
`.//Part/Staff` match (i.e. Part-staves are not nested inside one
another), and the path is valid. -/
def pathNM (im : Bool) (d : ℕ) : E → List ℕ → Bool
| _, [] => true
| e, i :: p =>
  !im && (match e.children.get? i with
    | some c => pathNM ((e.tag == "Part" && decide (1 ≤ d)) && c.tag == "Staff") (d + 1) c p
    | none => false)

/-- The value the claim describes for a synthesized pitch: the unique
representative of the pitch class of `x` lying in the range `(50, 62]`. -/
def claimRep (x : ℤ) : ℤ := 51 + (x - 51) % 12

/-! ## Supporting lemmas -/

theorem raisePitch_claimRep (x : ℤ) : raisePitch (x % 12) = claimRep x := by
  have h0 : (0 : ℤ) ≤ x % 12 := Int.emod_nonneg x (by norm_num)
  have h1 : x % 12 < 12 := Int.emod_lt_of_pos x (by norm_num)
  obtain ⟨ha, hb, hc⟩ := raisePitch_spec (x % 12) (by omega)
  unfold claimRep
  omega

theorem epStep_eq (c : Chord) (R : ℤ) (hroot : c.root_pitch = some R)
    (acc : List ℤ) (iv : ℤ) :
    epStep c acc iv = some (if raisePitch ((R + iv) % 12) ∈ c.pitches
      then acc else acc ++ [raisePitch ((R + iv) % 12)]) := by
  unfold epStep
  rw [hroot]
  rfl

theorem extra_foldlM (c : Chord) (R : ℤ) (hroot : c.root_pitch = some R) :
    ∀ (ivs : List ℤ) (acc : List ℤ),
      (ivs.foldlM (epStep c) acc : Option (List ℤ))
        = some (acc ++ ivs.filterMap (fun iv =>
            if raisePitch ((R + iv) % 12) ∈ c.pitches then none
            else some (raisePitch ((R + iv) % 12)))) := by
  intro ivs
  induction ivs with
  | nil => intro acc; simp
  | cons iv ivs ih =>
    intro acc
    rw [List.foldlM_cons, epStep_eq c R hroot]
    by_cases hmem : raisePitch ((R + iv) % 12) ∈ c.pitches
    · simp only [if_pos hmem, List.filterMap_cons, Option.bind_eq_bind, Option.some_bind]
      rw [ih acc]
    · simp only [if_neg hmem, List.filterMap_cons, Option.bind_eq_bind, Option.some_bind]
      rw [ih (acc ++ [raisePitch ((R + iv) % 12)])]
      simp [List.append_assoc]

theorem filterMap_eq_map_filter (ps : List ℤ) (f : ℤ → ℤ) :
    ∀ l : List ℤ, (l.filterMap (fun iv => if f iv ∈ ps then none else some (f iv)))
      = (l.map f).filter (fun p => decide (p ∉ ps)) := by
  intro l
  induction l with
  | nil => rfl
  | cons a l ih =>
    simp only [List.filterMap_cons, List.map_cons, List.filter_cons]
    by_cases h : f a ∈ ps <;> simp [h, ih]

theorem mapM_none_of_mem {α β : Type} (f : α → Option β) :
    ∀ (l : List α) (x : α), x ∈ l → f x = none → l.mapM f = none := by
  intro l
  induction l with
  | nil => intro x hx; cases hx
  | cons a l ih =>
    intro x hx hfx
    rw [List.mapM_cons]
    rcases List.mem_cons.mp hx with h | h
    · subst h
      rw [hfx]
      rfl
    · cases hfa : f a with
      | none => rfl
      | some b =>
        rw [ih x h hfx]
        rfl

theorem mapM_some_spec {α β : Type} (f : α → Option β) :
    ∀ (l : List α) (r : List β), l.mapM f = some r →
      r.length = l.length ∧ ∀ k, r.get? k = (l.get? k).bind f := by
  intro l
  induction l with
  | nil =>
    intro r h
    rw [List.mapM_nil] at h
    cases h
    exact ⟨rfl, fun k => by cases k <;> rfl⟩
  | cons a l ih =>
    intro r h
    rw [List.mapM_cons] at h
    cases hfa : f a with
    | none => rw [hfa] at h; cases h
    | some b =>
      rw [hfa] at h
      cases hml : l.mapM f with
      | none => rw [hml] at h; cases h
      | some bs =>
        rw [hml] at h
        cases h
        obtain ⟨hlen, hget⟩ := ih bs hml
        refine ⟨by simp [hlen], fun k => ?_⟩
        cases k with
        | zero => simp [hfa]
        | succ k => simpa using hget k

theorem mapM_isSome {α β : Type} (f : α → Option β) :
    ∀ l : List α, (∀ x ∈ l, (f x).isSome) → ∃ r, l.mapM f = some r := by
  intro l
  induction l with
  | nil => intro _; exact ⟨[], rfl⟩
  | cons a l ih =>
    intro h
    obtain ⟨b, hb⟩ := Option.isSome_iff_exists.mp (h a (List.mem_cons_self a l))
    obtain ⟨bs, hbs⟩ := ih (fun x hx => h x (List.mem_cons_of_mem a hx))
    exact ⟨b :: bs, by rw [List.mapM_cons, hb, hbs]; rfl⟩

theorem mem_sortDesc {p : ℤ} {l : List ℤ} : p ∈ sortDesc l ↔ p ∈ l := by
  unfold sortDesc
  rw [List.mem_reverse]
  exact (List.perm_insertionSort (· ≤ ·) l).mem_iff

theorem length_sortDesc (l : List ℤ) : (sortDesc l).length = l.length := by
  unfold sortDesc
  rw [List.length_reverse]
  exact (List.perm_insertionSort (· ≤ ·) l).length_eq

/-! ## Claim C9 -/

theorem mscxPassthrough (parse : List ℕ → Option E) (ser : E → List ℕ)
    (t : MscxT) (path : String) (content : List ℕ)
    (h : pyEndsWith path ".mscx" = false) :
    t.process parse ser path content = some content := by
  unfold MscxT.process
  rw [h]
  rfl

/-- C9: an archive member whose path does not end in `.mscx` passes
through every transform, and hence every pipeline of transforms,
unchanged; only the notation member is parsed and transformed. -/
theorem claim9_dispatcher_passthrough (parse : List ℕ → Option E) (ser : E → List ℕ)
    (ts : List MscxT) (path : String) (content : List ℕ)
    (h : pyEndsWith path ".mscx" = false) :
    multiProcess parse ser ts path content = some content ∧
    ∀ t : MscxT, t.process parse ser path content = some content := by
  refine ⟨?_, fun t => mscxPassthrough parse ser t path content h⟩
  unfold multiProcess
  induction ts with
  | nil => rfl
  | cons t ts ih =>
    rw [List.foldl_cons, show (some content).bind (t.process parse ser path) = some content from
      by rw [Option.some_bind, mscxPassthrough parse ser t path content h]]
    exact ih

/-- Witness for C9 at a concrete non-notation member. -/
theorem claim9_witness :
    multiProcess (fun _ => none) (fun _ => []) [⟨fun _ => none⟩, ⟨fun r => some r⟩]
      "META-INF/container.xml" [3, 1, 4] = some [3, 1, 4] :=
  (claim9_dispatcher_passthrough (fun _ => none) (fun _ => [])
    [⟨fun _ => none⟩, ⟨fun r => some r⟩] "META-INF/container.xml" [3, 1, 4] (by decide)).1

/-! ## Claim C1 -/

/-- C1: for every note-group with a recognized chord marking and a
non-empty pitch set with root `R = max(pitches)`, `extra_pitches` yields,
one per interval in `chord_intervals` and skipping the pitches already
present in the pitch set, exactly the unique representative of
`(R + interval) mod 12` lying in the range `(50, 62]`. -/
theorem claim1_extra_pitches (g : E) (c : Chord) (R : ℤ)
    (hof : Chord.ofNode g = some c)
    (hmark : c.chord_intervals ≠ [])
    (hroot : c.root_pitch = some R) :
    ∃ l, c.extra_pitches = some l ∧
      l = (c.chord_intervals.map (fun iv => claimRep (R + iv))).filter
        (fun p => decide (p ∉ c.pitches)) ∧
      (∀ p ∈ l, p ∉ c.pitches) ∧
      ∀ iv : ℤ,
        (50 < claimRep (R + iv) ∧ claimRep (R + iv) ≤ 62 ∧
          (claimRep (R + iv) - (R + iv)) % 12 = 0) ∧
        ∀ y : ℤ, 50 < y → y ≤ 62 → (y - (R + iv)) % 12 = 0 → y = claimRep (R + iv) := by
  refine ⟨(c.chord_intervals.map (fun iv => claimRep (R + iv))).filter
      (fun p => decide (p ∉ c.pitches)), ?_, rfl, ?_, ?_⟩
  · unfold Chord.extra_pitches
    rw [extra_foldlM c R hroot c.chord_intervals [], List.nil_append]
    congr 1
    have hfun : (fun iv : ℤ => if raisePitch ((R + iv) % 12) ∈ c.pitches then none
        else some (raisePitch ((R + iv) % 12)))
        = (fun iv : ℤ => if claimRep (R + iv) ∈ c.pitches then none
            else some (claimRep (R + iv))) := by
      funext iv
      rw [raisePitch_claimRep (R + iv)]
    rw [hfun, filterMap_eq_map_filter c.pitches (fun iv => claimRep (R + iv)) c.chord_intervals]
  · intro p hp
    exact of_decide_eq_true (List.mem_filter.mp hp).2
  · intro iv
    refine ⟨⟨?_, ?_, ?_⟩, fun y h1 h2 h3 => ?_⟩ <;> · unfold claimRep at *; omega

/-- Witness for C1: the concrete chord node with marking `M` and pitch 60. -/
def cexChordNode : E :=
  .mk "Chord" [] none
    [.mk "Note" [] none
      [.mk "pitch" [] (some "60") [],
       .mk "tpc" [] (some "14") [],
       .mk "Fingering" [] none [.mk "text" [] (some "M") []]]]

def cexChord : Chord :=
  ⟨[4, 7], "", [60], [0], [(60, 14)], [.mk "text" [] (some "M") []]⟩

theorem claim1_witness :
    ∃ l, cexChord.extra_pitches = some l ∧
      l = (cexChord.chord_intervals.map (fun iv => claimRep (60 + iv))).filter
        (fun p => decide (p ∉ cexChord.pitches)) ∧
      (∀ p ∈ l, p ∉ cexChord.pitches) ∧
      ∀ iv : ℤ,
        (50 < claimRep (60 + iv) ∧ claimRep (60 + iv) ≤ 62 ∧
          (claimRep (60 + iv) - (60 + iv)) % 12 = 0) ∧
        ∀ y : ℤ, 50 < y → y ≤ 62 → (y - (60 + iv)) % 12 = 0 → y = claimRep (60 + iv) :=
  claim1_extra_pitches cexChordNode cexChord 60 rfl (by decide) rfl

/-! ## Claim C10 -/

/-- C10: a note-group carrying a recognized chord marking (non-empty
`chord_intervals`) but no pitches makes `extra_pitches` raise (`max` of an
empty set), so the per-chord expansion step fails rather than emitting
zero extra pitches. -/
theorem claim10_empty_marked_group_fails (g : E) (c : Chord)
    (hof : Chord.ofNode g = some c)
    (hmark : c.chord_intervals ≠ [])
    (hnop : c.pitches = []) :
    c.extra_pitches = none ∧ germanChordStep g = none := by
  have hroot : c.root_pitch = none := by rw [Chord.root_pitch, hnop]; rfl
  have hstep : ∀ acc iv, epStep c acc iv = none := by
    intro acc iv
    unfold epStep
    rw [hroot]
    rfl
  have hep : c.extra_pitches = none := by
    unfold Chord.extra_pitches
    cases hiv : c.chord_intervals with
    | nil => exact absurd hiv hmark
    | cons iv ivs =>
      rw [List.foldlM_cons, hstep]
      rfl
  refine ⟨hep, ?_⟩
  unfold germanChordStep
  rw [hof]
  simp only [Option.bind_eq_bind, Option.some_bind]
  rw [show c.extra_note_nodes = none from by rw [Chord.extra_note_nodes, hep]; rfl]
  simp only [Option.none_bind]

/-- Witness chord node for C10: a marked group with no pitches. -/
def emptyMarkedNode : E :=
  .mk "Chord" [] none [.mk "Fingering" [] none [.mk "text" [] (some "m") []]]

theorem claim10_witness :
    (⟨[3, 7], "m", [], [], [], [.mk "text" [] (some "m") []]⟩ : Chord).extra_pitches = none ∧
    germanChordStep emptyMarkedNode = none :=
  claim10_empty_marked_group_fails emptyMarkedNode
    ⟨[3, 7], "m", [], [], [], [.mk "text" [] (some "m") []]⟩ rfl (by decide) rfl

/-! ## Claim C8 -/

/-- C8: a pitch present in the pitch set but with no tonal-pitch-class
mapping makes the chord's annotation computation fail rather than
defaulting to any name. -/
theorem claim8_missing_tpc_fails (g : E) (c : Chord) (p : ℤ)
    (hof : Chord.ofNode g = some c)
    (hp : p ∈ c.pitches)
    (hmiss : dget c.tpc_by_pitch p = none) :
    c.annotations = none := by
  have hps : p ∈ sortDesc c.pitches := mem_sortDesc.mpr hp
  have hline : annLine c p = none := by
    unfold annLine
    rw [hmiss]
    rfl
  unfold Chord.annotations
  rw [mapM_none_of_mem (annLine c) (sortDesc c.pitches) p hps hline]
  rfl

/-- Witness chord node for C8: one note with a pitch but no `tpc` sibling. -/
def noTpcNode : E :=
  .mk "Chord" [] none [.mk "Note" [] none [.mk "pitch" [] (some "60") []]]

theorem claim8_witness :
    (⟨[], "", [60], [0], [], []⟩ : Chord).annotations = none :=
  claim8_missing_tpc_fails noTpcNode ⟨[], "", [60], [0], [], []⟩ 60 rfl (by decide) rfl

/-! ## Claim C3 -/

theorem sinsert_nodup (p : ℤ) (l : List ℤ) (h : l.Nodup) : (sinsert p l).Nodup := by
  unfold sinsert
  split_ifs with hmem
  · exact h
  · simp [List.nodup_append, h, hmem]

theorem pitchStep_nodup (st : List ℤ × List ℤ × List (ℤ × ℤ))
    (pe : Option String × List (Option String)) (st2 : List ℤ × List ℤ × List (ℤ × ℤ))
    (h : pitchStep st pe = some st2) (hn : st.1.Nodup) : st2.1.Nodup := by
  unfold pitchStep at h
  cases hp : pyInt pe.1 with
  | none => rw [hp] at h; cases h
  | some p =>
    rw [hp] at h
    cases hts : pe.2.mapM pyInt with
    | none => rw [hts] at h; cases h
    | some ts =>
      rw [hts] at h
      cases h
      exact sinsert_nodup p st.1 hn

theorem foldlM_pitch_nodup :
    ∀ (entries : List (Option String × List (Option String)))
      (st : List ℤ × List ℤ × List (ℤ × ℤ)), st.1.Nodup →
      ∀ st2, entries.foldlM pitchStep st = some st2 → st2.1.Nodup := by
  intro entries
  induction entries with
  | nil =>
    intro st hn st2 h
    rw [List.foldlM_nil] at h
    cases h
    exact hn
  | cons pe entries ih =>
    intro st hn st2 h
    rw [List.foldlM_cons] at h
    cases hstep : pitchStep st pe with
    | none => rw [hstep] at h; cases h
    | some st1 =>
      rw [hstep] at h
      exact ih st1 (pitchStep_nodup st pe st1 hstep hn) st2 h

/-- The pitch set built by `Chord.__init__` is duplicate-free. -/
theorem ofNode_pitches_nodup (g : E) (c : Chord) (h : Chord.ofNode g = some c) :
    c.pitches.Nodup := by
  unfold Chord.ofNode at h
  cases hst : (pitchEntriesE g).foldlM pitchStep ([], [], []) with
  | none => rw [hst] at h; cases h
  | some st =>
    rw [hst] at h
    cases h
    exact foldlM_pitch_nodup (pitchEntriesE g) ([], [], []) List.nodup_nil st hst

theorem sortDesc_sorted_gt (l : List ℤ) (h : l.Nodup) : (sortDesc l).Sorted (· > ·) := by
  unfold sortDesc
  have hs : (List.insertionSort (· ≤ ·) l).Sorted (· ≤ ·) := List.sorted_insertionSort (· ≤ ·) l
  have hn : (List.insertionSort (· ≤ ·) l).Nodup :=
    (List.perm_insertionSort (· ≤ ·) l).nodup_iff.mpr h
  exact List.pairwise_reverse.mpr (hs.lt_of_le hn)

/-- C3: `annotations` is empty for an empty pitch set; otherwise it is one
string whose lines list the distinct pitches in strictly descending order,
each line being the pitch's tonal name from the 35-entry table, with the
root's line lower-cased and suffixed exactly when a chord marking was
recognized and no other line altered. -/
theorem claim3_annotations (g : E) (c : Chord) (hof : Chord.ofNode g = some c) :
    (c.pitches = [] → c.annotations = some []) ∧
    (c.pitches ≠ [] →
      (∀ p ∈ c.pitches, ∃ t, dget c.tpc_by_pitch p = some t ∧ (pyIndex TPC_NAMES t).isSome) →
      ∃ lines, c.annotations = some [String.intercalate "\n" lines] ∧
        lines.length = c.pitches.length ∧
        (sortDesc c.pitches).Sorted (· > ·) ∧
        (∀ p, p ∈ sortDesc c.pitches ↔ p ∈ c.pitches) ∧
        ∀ k p, (sortDesc c.pitches).get? k = some p →
          ∃ t name, dget c.tpc_by_pitch p = some t ∧ pyIndex TPC_NAMES t = some name ∧
            lines.get? k = some (if c.chord_intervals ≠ [] ∧ c.root_pitch = some p
              then pyLower name ++ c.chord_suffix else name)) := by
  constructor
  · intro hemp
    unfold Chord.annotations
    rw [hemp]
    rfl
  · intro hne htpc
    have hsome : ∀ p ∈ sortDesc c.pitches, (annLine c p).isSome := by
      intro p hp
      obtain ⟨t, ht, hidx⟩ := htpc p (mem_sortDesc.mp hp)
      obtain ⟨name, hname⟩ := Option.isSome_iff_exists.mp hidx
      unfold annLine
      simp only [ht, hname, Option.bind_eq_bind, Option.some_bind]
      rfl
    obtain ⟨lines, hm⟩ := mapM_isSome (annLine c) (sortDesc c.pitches) hsome
    obtain ⟨hlen, hget⟩ := mapM_some_spec (annLine c) (sortDesc c.pitches) lines hm
    have hlen2 : lines.length = c.pitches.length := by rw [hlen, length_sortDesc]
    have hpos : 0 < lines.length := by
      rw [hlen2]
      exact List.length_pos.mpr hne
    refine ⟨lines, ?_, hlen2, sortDesc_sorted_gt c.pitches (ofNode_pitches_nodup g c hof),
      fun p => mem_sortDesc, ?_⟩
    · unfold Chord.annotations
      rw [hm]
      simp only [Option.bind_eq_bind, Option.some_bind, Option.pure_def]
      rw [if_pos hpos]
    · intro k p hk
      have hpm : p ∈ c.pitches := mem_sortDesc.mp (List.get?_mem hk)
      obtain ⟨t, ht, hidx⟩ := htpc p hpm
      obtain ⟨name, hname⟩ := Option.isSome_iff_exists.mp hidx
      refine ⟨t, name, ht, hname, ?_⟩
      rw [hget k, hk, Option.some_bind]
      unfold annLine
      simp only [ht, hname, Option.bind_eq_bind, Option.some_bind]
      rfl

/-- Witness for C3: the concrete chord with marking `M` and pitch 60. -/
theorem claim3_witness :
    ∃ lines, cexChord.annotations = some [String.intercalate "\n" lines] ∧
      lines.length = cexChord.pitches.length ∧
      (sortDesc cexChord.pitches).Sorted (· > ·) ∧
      (∀ p, p ∈ sortDesc cexChord.pitches ↔ p ∈ cexChord.pitches) ∧
      ∀ k p, (sortDesc cexChord.pitches).get? k = some p →
        ∃ t name, dget cexChord.tpc_by_pitch p = some t ∧ pyIndex TPC_NAMES t = some name ∧
          lines.get? k = some (if cexChord.chord_intervals ≠ [] ∧ cexChord.root_pitch = some p
            then pyLower name ++ cexChord.chord_suffix else name) :=
  (claim3_annotations cexChordNode cexChord rfl).2 (by decide)
    (by
      intro p hp
      have h60 : p = 60 := by
        cases hp with
        | head => rfl
        | tail _ h => cases h
      subst h60
      exact ⟨14, rfl, rfl⟩)

/-! ## Claim C2 -/

/-- C2 (amended): expanding a note-group whose marking is `M` and whose
pitch set is exactly `{60}` (root tonal name C, tpc 14) appends exactly 2
extra note nodes to the group and produces exactly one annotated
staff-text whose text is the single line `c` (lower-case, no suffix) —
one line, because the text is computed from the pitch set captured before
the extra notes are appended. -/
theorem claim2_german_M60 (g : E) (c : Chord)
    (hof : Chord.ofNode g = some c)
    (hiv : c.chord_intervals = [4, 7])
    (hsuf : c.chord_suffix = "")
    (hp : c.pitches = [60])
    (htpc : dget c.tpc_by_pitch 60 = some 14) :
    ∃ g2, germanChordStep g = some ([staffTextNode "c"], g2) ∧
      g2.children.length = g.children.length + 2 ∧
      g2.children.drop g.children.length = [noteNode 52, noteNode 55] ∧
      lineCount "c" = 1 := by
  have hroot : c.root_pitch = some 60 := by rw [Chord.root_pitch, hp]; rfl
  have hline : annLine c 60 = some "c" := by
    unfold annLine
    rw [htpc]
    simp only [Option.bind_eq_bind, Option.some_bind]
    rw [show pyIndex TPC_NAMES 14 = some "C" from rfl]
    simp only [Option.some_bind]
    have hcond : c.chord_intervals ≠ [] ∧ c.root_pitch = some 60 := ⟨by rw [hiv]; decide, hroot⟩
    rw [if_pos hcond, hsuf]
    rfl
  have hann : c.annotations = some ["c"] := by
    unfold Chord.annotations
    rw [hp, show sortDesc [60] = [60] from rfl, List.mapM_cons, hline, List.mapM_nil]
    rfl
  have hep : c.extra_pitches = some [52, 55] := by
    unfold Chord.extra_pitches
    rw [hiv, extra_foldlM c 60 hroot [4, 7] [], hp]
    decide
  have hnotes : c.extra_note_nodes = some [noteNode 52, noteNode 55] := by
    rw [Chord.extra_note_nodes, hep]
    rfl
  have hsts : c.extra_stafftext_nodes = some [staffTextNode "c"] := by
    rw [Chord.extra_stafftext_nodes, hann]
    rfl
  have hch : ∀ ns : List E, (rmMarkTop (appendChildren g ns)).children
      = g.children.map rmMarkIn ++ ns.map rmMarkIn := by
    intro ns
    simp [rmMarkTop, appendChildren, E.children, List.map_append]
  refine ⟨rmMarkTop (appendChildren g [noteNode 52, noteNode 55]), ?_, ?_, ?_, rfl⟩
  · unfold germanChordStep
    rw [hof]
    simp only [Option.bind_eq_bind, Option.some_bind]
    rw [hnotes]
    simp only [Option.some_bind]
    rw [hsts]
    rfl
  · rw [hch]
    simp [List.length_append, List.length_map]
  · rw [hch, List.drop_left' (List.length_map g.children rmMarkIn)]
    rfl

/-- C2 counterexample: on the concrete note-group with marking `M` and
pitch set exactly `{60}` (root tonal name C), the transform appends 2
extra notes but the single synthesized annotated staff-text has the text
`c`, which has 1 line — not 3 as the claim states. -/
theorem claim2_cex :
    Chord.ofNode cexChordNode = some cexChord ∧
    cexChord.pitches = [60] ∧
    germanChordStep cexChordNode =
      some ([staffTextNode "c"],
        .mk "Chord" [] none
          [.mk "Note" [] none
            [.mk "pitch" [] (some "60") [],
             .mk "tpc" [] (some "14") [],
             .mk "Fingering" [] none []],
           noteNode 52, noteNode 55]) ∧
    (staffTextNode "c").children
      = [.mk "placement" [] (some "below") [], .mk "text" [] (some "c") []] ∧
    lineCount "c" = 1 ∧ ¬ lineCount "c" = 3 :=
  ⟨rfl, rfl, rfl, rfl, rfl, by decide⟩

/-- Witness for C2 (amended) at the concrete note-group. -/
theorem claim2_witness :
    ∃ g2, germanChordStep cexChordNode = some ([staffTextNode "c"], g2) ∧
      g2.children.length = cexChordNode.children.length + 2 ∧
      g2.children.drop cexChordNode.children.length = [noteNode 52, noteNode 55] ∧
      lineCount "c" = 1 :=
  claim2_german_M60 cexChordNode cexChord rfl rfl rfl rfl rfl

/-! ## Claim C6 -/

theorem zip_get? {α β : Type} : ∀ (l1 : List α) (l2 : List β) (i : ℕ),
    (l1.zip l2).get? i = (l1.get? i).bind (fun a => (l2.get? i).map (fun b => (a, b))) := by
  intro l1
  induction l1 with
  | nil => intro l2 i; simp
  | cons a l1 ih =>
    intro l2 i
    cases l2 with
    | nil => cases i <;> simp
    | cons b l2 =>
      cases i with
      | zero => rfl
      | succ i => simpa using ih l2 i

theorem zipAll_le {α : Type} : ∀ (ls : List (List α)) (l : List α),
    l ∈ ls → (zipAll ls).length ≤ l.length := by
  intro ls
  induction ls with
  | nil => intro l hl; cases hl
  | cons l0 ls ih =>
    cases ls with
    | nil =>
      intro l hl
      rcases List.mem_singleton.mp hl with rfl
      simp [zipAll]
    | cons l1 ls2 =>
      intro l hl
      have hlen : (zipAll (l0 :: l1 :: ls2)).length
          = min (zipAll (l1 :: ls2)).length l0.length := by
        simp [zipAll, List.length_zip]
      rcases List.mem_cons.mp hl with rfl | hl
      · rw [hlen]; exact min_le_right _ _
      · rw [hlen]; exact le_trans (min_le_left _ _) (ih l hl)

theorem zipAll_attain {α : Type} : ∀ (ls : List (List α)), ls ≠ [] →
    ∃ l ∈ ls, (zipAll ls).length = l.length := by
  intro ls
  induction ls with
  | nil => intro h; exact absurd rfl h
  | cons l0 ls ih =>
    cases ls with
    | nil =>
      intro _
      exact ⟨l0, List.mem_singleton.mpr rfl, by simp [zipAll]⟩
    | cons l1 ls2 =>
      intro _
      have hlen : (zipAll (l0 :: l1 :: ls2)).length
          = min (zipAll (l1 :: ls2)).length l0.length := by
        simp [zipAll, List.length_zip]
      obtain ⟨l, hl, hval⟩ := ih (by simp)
      by_cases hmin : (zipAll (l1 :: ls2)).length ≤ l0.length
      · exact ⟨l, List.mem_cons_of_mem l0 hl,
          by rw [hlen, min_eq_left hmin]; exact hval⟩
      · exact ⟨l0, List.mem_cons_self l0 _,
          by rw [hlen, min_eq_right (le_of_not_le hmin)]⟩

theorem zipAll_get {α : Type} : ∀ (ls : List (List α)) (i : ℕ) (g : List α),
    (zipAll ls).get? i = some g →
    g.length = ls.length ∧ ∀ j, g.get? j = (ls.get? j).bind (fun l => l.get? i) := by
  intro ls
  induction ls with
  | nil => intro i g h; cases h
  | cons l0 ls ih =>
    cases ls with
    | nil =>
      intro i g h
      simp only [zipAll, List.get?_map] at h
      cases hx : l0.get? i with
      | none => rw [hx] at h; cases h
      | some x =>
        rw [hx] at h
        cases h
        refine ⟨rfl, fun j => ?_⟩
        cases j with
        | zero => rw [List.get?_eq_getElem?] at hx; simp [hx]
        | succ j => cases j <;> rfl
    | cons l1 ls2 =>
      intro i g h
      simp only [zipAll, List.get?_map, zip_get?] at h
      cases hg : (zipAll (l1 :: ls2)).get? i with
      | none => rw [hg] at h; cases h
      | some g2 =>
        rw [hg] at h
        cases hx : l0.get? i with
        | none => rw [hx] at h; cases h
        | some a =>
          rw [hx] at h
          cases h
          obtain ⟨hlen, hget⟩ := ih i g2 hg
          refine ⟨by simpa using hlen, fun j => ?_⟩
          cases j with
          | zero => rw [List.get?_eq_getElem?] at hx; simp [hx]
          | succ j => simpa using hget j

/-- C6: the aligned measure sequence zips same-index measures from each
Score-staff's measure list; its length is the minimum measure count over
the staves (at most every staff's count, and attained by one of them),
the excess measures of longer staves being silently ignored. -/
theorem claim6_measures_aligned (root : E)
    (hne : measureLists root ≠ []) :
    (∀ l ∈ measureLists root, (measuresOf root).length ≤ l.length) ∧
    (∃ l ∈ measureLists root, (measuresOf root).length = l.length) ∧
    ∀ i g, (measuresOf root).get? i = some g →
      g.length = (measureLists root).length ∧
      ∀ j, g.get? j = ((measureLists root).get? j).bind (fun ms => ms.get? i) :=
  ⟨fun l hl => zipAll_le (measureLists root) l hl,
   zipAll_attain (measureLists root) hne,
   fun i g h => zipAll_get (measureLists root) i g h⟩

/-- Concrete two-staff document with unequal measure counts (1 and 2). -/
def alignDoc : E :=
  .mk "museScore" [] none
    [.mk "Score" [] none
      [.mk "Part" [] none
        [.mk "Staff" [("id", "1")] none [], .mk "Staff" [("id", "2")] none []],
       .mk "Staff" [("id", "1")] none [.mk "Measure" [] none []],
       .mk "Staff" [("id", "2")] none
         [.mk "Measure" [] none [], .mk "Measure" [] none []]]]

theorem claim6_witness :
    (∀ l ∈ measureLists alignDoc, (measuresOf alignDoc).length ≤ l.length) ∧
    (∃ l ∈ measureLists alignDoc, (measuresOf alignDoc).length = l.length) ∧
    ∀ i g, (measuresOf alignDoc).get? i = some g →
      g.length = (measureLists alignDoc).length ∧
      ∀ j, g.get? j = ((measureLists alignDoc).get? j).bind (fun ms => ms.get? i) :=
  claim6_measures_aligned alignDoc (by
    intro h
    have hl : (measureLists alignDoc).length = 0 := by rw [h]; rfl
    exact absurd hl (by decide))

/-! ## Claim C7 -/

theorem scrubAll_eq (t : String) (e : E) :
    scrubAll t e = .mk e.tag e.attrs e.text (scrubAllL t e.children) := by
  cases e
  rfl

theorem countTagL_append (t : String) : ∀ l1 l2 : List E,
    countTagL t (l1 ++ l2) = countTagL t l1 + countTagL t l2 := by
  intro l1 l2
  induction l1 with
  | nil => simp [countTagL]
  | cons c l1 ih =>
    show countTag t c + countTagL t (l1 ++ l2) = countTag t c + countTagL t l1 + countTagL t l2
    rw [ih]
    omega

theorem scrubAll_count (t : String) : ∀ e : E,
    countTag t (scrubAll t e) = if e.tag == t then 1 else 0 := by
  intro e
  induction e using E.myInduction with
  | h s a tx cs ih =>
    have hl : ∀ cs2 : List E,
        (∀ c ∈ cs2, countTag t (scrubAll t c) = if c.tag == t then 1 else 0) →
        countTagL t (scrubAllL t cs2) = 0 := by
      intro cs2
      induction cs2 with
      | nil => intro _; rfl
      | cons c cs2 ih2 =>
        intro hmem
        show countTagL t ((if c.tag == t then [] else [scrubAll t c]) ++ scrubAllL t cs2) = 0
        rw [countTagL_append, ih2 (fun x hx => hmem x (List.mem_cons_of_mem c hx))]
        by_cases hc : (c.tag == t) = true
        · rw [if_pos hc]
          rfl
        · rw [if_neg hc]
          show countTag t (scrubAll t c) + countTagL t [] + 0 = 0
          rw [hmem c (List.mem_cons_self c cs2), if_neg hc]
          rfl
    show (if s == t then 1 else 0) + countTagL t (scrubAllL t cs) = if (E.mk s a tx cs).tag == t then 1 else 0
    rw [hl cs ih]
    rfl

theorem scrubAllL_count (t : String) : ∀ cs : List E, countTagL t (scrubAllL t cs) = 0 := by
  intro cs
  induction cs with
  | nil => rfl
  | cons c cs ih =>
    show countTagL t ((if c.tag == t then [] else [scrubAll t c]) ++ scrubAllL t cs) = 0
    rw [countTagL_append, ih]
    by_cases hc : (c.tag == t) = true
    · rw [if_pos hc]
      rfl
    · rw [if_neg hc]
      show countTag t (scrubAll t c) + countTagL t [] + 0 = 0
      rw [scrubAll_count t c, if_neg hc]
      rfl

/-- The invisible rest clone is `Rest`-tagged, carries no `Note` node
anywhere, and ends with the `<visible>0</visible>` marker. -/
theorem dummyRest_props (it : E) :
    (dummyRest it).tag = "Rest" ∧ countTag "Note" (dummyRest it) = 0 ∧
    (dummyRest it).children.getLast? = some (.mk "visible" [] (some "0") []) := by
  unfold dummyRest
  rw [scrubAll_eq]
  refine ⟨rfl, ?_, ?_⟩
  · show (if ("Rest" == "Note") then 1 else 0)
        + countTagL "Note" (scrubAllL "Note" it.children ++ [.mk "visible" [] (some "0") []]) = 0
    rw [countTagL_append, scrubAllL_count "Note" it.children]
    rfl
  · show (scrubAllL "Note" it.children ++ [E.mk "visible" [] (some "0") []]).getLast? = _
    rw [List.getLast?_concat]

theorem ciStep_spec (acc : List E) (it : E) (r : List E)
    (h : ciStep acc it = some r) :
    ∃ sts : List E, r = acc ++ sts ++ [dummyRest it] ∧
      sts.filter (fun c => c.tag == "Rest") = [] := by
  unfold ciStep at h
  by_cases hch : (it.tag == "Chord") = true
  · rw [if_pos hch] at h
    cases hc : Chord.ofNode it with
    | none => rw [hc] at h; cases h
    | some c =>
      rw [hc] at h
      simp only [Option.bind_eq_bind, Option.some_bind] at h
      cases hsts : c.extra_stafftext_nodes with
      | none => rw [hsts] at h; cases h
      | some sts0 =>
        rw [hsts] at h
        simp only [Option.some_bind, Option.pure_def, Option.some.injEq] at h
        refine ⟨sts0.map (fun st => E.mk st.tag st.attrs st.text (st.children ++ [offsetNode])),
          h.symm, ?_⟩
        obtain ⟨anns, hanns, hmap⟩ : ∃ anns, c.annotations = some anns ∧
            sts0 = anns.map staffTextNode := by
          unfold Chord.extra_stafftext_nodes at hsts
          cases ha : c.annotations with
          | none => rw [ha] at hsts; cases hsts
          | some anns =>
            rw [ha] at hsts
            cases hsts
            exact ⟨anns, rfl, rfl⟩
        rw [hmap]
        rw [List.filter_eq_nil_iff]
        intro x hx
        simp only [List.map_map, List.mem_map] at hx
        obtain ⟨s, _, hxe⟩ := hx
        rw [← hxe]
        simp [staffTextNode, Function.comp, E.tag]
  · rw [if_neg hch] at h
    simp only [Option.bind_eq_bind, Option.pure_def, Option.some_bind, Option.some.injEq] at h
    exact ⟨[], h.symm, rfl⟩

theorem expandItems_filter : ∀ (items : List E) (acc r : List E),
    items.foldlM ciStep acc = some r →
    r.filter (fun c => c.tag == "Rest")
      = acc.filter (fun c => c.tag == "Rest") ++ items.map dummyRest := by
  intro items
  induction items with
  | nil =>
    intro acc r h
    rw [List.foldlM_nil] at h
    cases h
    simp
  | cons it items ih =>
    intro acc r h
    rw [List.foldlM_cons] at h
    cases hstep : ciStep acc it with
    | none => rw [hstep] at h; cases h
    | some r1 =>
      rw [hstep] at h
      obtain ⟨sts, hr1, hsts⟩ := ciStep_spec acc it r1 hstep
      rw [ih r1 r h, hr1]
      have hrest : (dummyRest it).tag == "Rest" := by
        rw [(dummyRest_props it).1]
        rfl
      simp [List.filter_append, hsts, hrest]

theorem listModify_get? {α : Type} (f : α → α) : ∀ (l : List α) (j : ℕ),
    (listModify l j f).get? j = (l.get? j).map f := by
  intro l
  induction l with
  | nil => intro j; cases j <;> rfl
  | cons a l ih =>
    intro j
    cases j with
    | zero => rfl
    | succ j => exact ih j

theorem updVoiceL_filter (f : E → E) (hf : ∀ c : E, (f c).tag = c.tag) :
    ∀ (cs : List E) (j : ℕ),
      (updVoiceL j f cs).filter (fun c => c.tag == "voice")
        = listModify (cs.filter (fun c => c.tag == "voice")) j f := by
  intro cs
  induction cs with
  | nil => intro j; rfl
  | cons c cs ih =>
    intro j
    by_cases hv : (c.tag == "voice") = true
    · show ((if c.tag == "voice" then _ else _ : List E)).filter _ = _
      rw [if_pos hv]
      cases j with
      | zero =>
        show ((f c :: cs).filter (fun c => c.tag == "voice")) = _
        rw [List.filter_cons, List.filter_cons]
        have hfc : ((f c).tag == "voice") = true := by rw [hf c]; exact hv
        rw [if_pos hfc, if_pos hv]
        rfl
      | succ j =>
        show ((c :: updVoiceL j f cs).filter (fun c => c.tag == "voice")) = _
        rw [List.filter_cons, List.filter_cons, if_pos hv, if_pos hv, ih j]
        rfl
    · show ((if c.tag == "voice" then _ else _ : List E)).filter _ = _
      rw [if_neg hv]
      show ((c :: updVoiceL j f cs).filter (fun c => c.tag == "voice")) = _
      rw [List.filter_cons, List.filter_cons, if_neg hv, if_neg hv, ih j]

theorem nthVoice_updVoice (m : E) (j : ℕ) (f : E → E) (hf : ∀ c : E, (f c).tag = c.tag) :
    nthVoice (updVoice m j f) j = (nthVoice m j).map f := by
  unfold nthVoice updVoice
  show ((E.mk m.tag m.attrs m.text (updVoiceL j f m.children)).children.filter _).get? j = _
  rw [show (E.mk m.tag m.attrs m.text (updVoiceL j f m.children)).children
      = updVoiceL j f m.children from rfl]
  rw [updVoiceL_filter f hf, listModify_get?]

theorem filter_replicate_voice : ∀ n : ℕ,
    ((List.replicate n (E.mk "voice" [] none [])).filter (fun c => c.tag == "voice")).length = n := by
  intro n
  induction n with
  | zero => rfl
  | succ n ih =>
    rw [List.replicate_succ, List.filter_cons]
    simp only [E.tag]
    rw [if_pos (by rfl)]
    simp [ih]

theorem voicePad_count (m : E) :
    4 ≤ ((voicePad m).children.filter (fun c => c.tag == "voice")).length := by
  unfold voicePad
  rw [show (E.mk m.tag m.attrs m.text
      (m.children ++ List.replicate
        (4 - (m.children.filter (fun c => c.tag == "voice")).length)
        (E.mk "voice" [] none []))).children
    = m.children ++ List.replicate
        (4 - (m.children.filter (fun c => c.tag == "voice")).length)
        (E.mk "voice" [] none []) from rfl]
  rw [List.filter_append, List.length_append, filter_replicate_voice]
  omega

theorem nthVoice_pad_isSome (m : E) (j : ℕ) (hj : j < 4) :
    ∃ v, nthVoice (voicePad m) j = some v := by
  unfold nthVoice
  cases hv : ((voicePad m).children.filter (fun c => c.tag == "voice")).get? j with
  | none =>
    have := List.get?_eq_none.mp hv
    have := voicePad_count m
    omega
  | some v => exact ⟨v, rfl⟩

/-- C7: for every aligned measure group, the condensing step reads voice
slot 0 of staff index 1 as source and voice slot 3 of staff index 0 as
destination; the destination voice gains the synthesized children
appended at its end, among which the `Rest`-tagged ones are exactly one
clone per note-group-or-rest child of the source voice, in the same
relative order, each clone being retagged as a rest, free of any note
node, and ending with the invisible marker. -/
theorem claim7_condense (m : List E) (s0 s1 : E) (res : List E)
    (h0 : m.get? 0 = some s0) (h1 : m.get? 1 = some s1)
    (h : expand_one_measure m = some res) :
    ∃ src dst newItems,
      nthVoice (voicePad s1) 0 = some src ∧
      nthVoice (voicePad s0) 3 = some dst ∧
      expandItems (src.children.filter (fun c => c.tag == "Chord" || c.tag == "Rest"))
        = some newItems ∧
      res = (m.set 1 (voicePad s1)).set 0
        (updVoice (voicePad s0) 3 (fun v => E.mk v.tag v.attrs v.text (v.children ++ newItems))) ∧
      nthVoice (updVoice (voicePad s0) 3
          (fun v => E.mk v.tag v.attrs v.text (v.children ++ newItems))) 3
        = some (E.mk dst.tag dst.attrs dst.text (dst.children ++ newItems)) ∧
      newItems.filter (fun c => c.tag == "Rest")
        = (src.children.filter (fun c => c.tag == "Chord" || c.tag == "Rest")).map dummyRest ∧
      ∀ it : E, (dummyRest it).tag = "Rest" ∧ countTag "Note" (dummyRest it) = 0 ∧
        (dummyRest it).children.getLast? = some (.mk "visible" [] (some "0") []) := by
  obtain ⟨src, hsrc⟩ := nthVoice_pad_isSome s1 0 (by omega)
  obtain ⟨dst, hdst⟩ := nthVoice_pad_isSome s0 3 (by omega)
  unfold expand_one_measure at h
  rw [h1] at h
  simp only [Option.bind_eq_bind, Option.some_bind] at h
  rw [hsrc] at h
  simp only [Option.some_bind] at h
  rw [h0] at h
  simp only [Option.some_bind] at h
  cases hni : expandItems (src.children.filter (fun c => c.tag == "Chord" || c.tag == "Rest")) with
  | none => rw [hni] at h; cases h
  | some newItems =>
    rw [hni] at h
    simp only [Option.some_bind, Option.pure_def, Option.some.injEq] at h
    refine ⟨src, dst, newItems, hsrc, hdst, hni, h.symm, ?_, ?_, fun it => dummyRest_props it⟩
    · rw [nthVoice_updVoice (voicePad s0) 3
        (fun v => E.mk v.tag v.attrs v.text (v.children ++ newItems)) (fun c => rfl), hdst]
      rfl
    · have := expandItems_filter
        (src.children.filter (fun c => c.tag == "Chord" || c.tag == "Rest")) [] newItems hni
      simpa using this

/-- Concrete aligned measure pair for the condensing step: staff 1's
measure has one voice holding a single rest. -/
def cm0 : E := .mk "Measure" [] none []

def cm1 : E :=
  .mk "Measure" [] none
    [.mk "voice" [] none [.mk "Rest" [] none [.mk "Note" [] none []]]]

def cmRes : List E :=
  [.mk "Measure" [] none
    [.mk "voice" [] none [], .mk "voice" [] none [], .mk "voice" [] none [],
     .mk "voice" [] none [.mk "Rest" [] none [.mk "visible" [] (some "0") []]]],
   .mk "Measure" [] none
    [.mk "voice" [] none [.mk "Rest" [] none [.mk "Note" [] none []]],
     .mk "voice" [] none [], .mk "voice" [] none [], .mk "voice" [] none []]]

theorem claim7_witness :
    ∃ src dst newItems,
      nthVoice (voicePad cm1) 0 = some src ∧
      nthVoice (voicePad cm0) 3 = some dst ∧
      expandItems (src.children.filter (fun c => c.tag == "Chord" || c.tag == "Rest"))
        = some newItems ∧
      cmRes = ([cm0, cm1].set 1 (voicePad cm1)).set 0
        (updVoice (voicePad cm0) 3 (fun v => E.mk v.tag v.attrs v.text (v.children ++ newItems))) ∧
      nthVoice (updVoice (voicePad cm0) 3
          (fun v => E.mk v.tag v.attrs v.text (v.children ++ newItems))) 3
        = some (E.mk dst.tag dst.attrs dst.text (dst.children ++ newItems)) ∧
      newItems.filter (fun c => c.tag == "Rest")
        = (src.children.filter (fun c => c.tag == "Chord" || c.tag == "Rest")).map dummyRest ∧
      ∀ it : E, (dummyRest it).tag = "Rest" ∧ countTag "Note" (dummyRest it) = 0 ∧
        (dummyRest it).children.getLast? = some (.mk "visible" [] (some "0") []) :=
  claim7_condense [cm0, cm1] cm0 cm1 cmRes rfl rfl rfl

/-! ## Claim C4 -/

theorem getAt_append : ∀ (pp : List ℕ) (root : E) (i : ℕ),
    getAt root (pp ++ [i]) = (getAt root pp).bind (fun par => par.children.get? i) := by
  intro pp
  induction pp with
  | nil =>
    intro root i
    cases root with
    | mk t a tx cs =>
      show (cs.get? i).bind (fun c => getAt c []) = cs.get? i
      cases cs.get? i <;> rfl
  | cons j pp ih =>
    intro root i
    cases root with
    | mk t a tx cs =>
      show (cs.get? j).bind (fun c => getAt c (pp ++ [i])) = ((cs.get? j).bind (fun c => getAt c pp)).bind _
      cases hc : cs.get? j with
      | none => rfl
      | some c => exact ih c i

theorem get?_set_self {α : Type} : ∀ (l : List α) (n : ℕ) (a b : α),
    l.get? n = some a → (l.set n b).get? n = some b := by
  intro l
  induction l with
  | nil => intro n a b h; cases n <;> cases h
  | cons x l ih =>
    intro n a b h
    cases n with
    | zero => rfl
    | succ n => exact ih n a b h

theorem insertAfterAt_cons (t : String) (a : List (String × String)) (tx : Option String)
    (cs : List E) (j : ℕ) (p : List ℕ) (hp : p ≠ []) (x : E) :
    insertAfterAt (.mk t a tx cs) (j :: p) x
      = (cs.get? j).bind (fun c => (insertAfterAt c p x).map (fun c2 => .mk t a tx (cs.set j c2))) := by
  cases p with
  | nil => exact absurd rfl hp
  | cons k p => rfl

theorem insertAfterAt_spec : ∀ (pp : List ℕ) (root par : E) (i : ℕ) (x : E),
    getAt root pp = some par → i < par.children.length →
    ∃ root2, insertAfterAt root (pp ++ [i]) x = some root2 ∧
      getAt root2 pp = some (.mk par.tag par.attrs par.text (insIdx par.children (i + 1) x)) := by
  intro pp
  induction pp with
  | nil =>
    intro root par i x hget hlt
    have hrp : root = par := Option.some.inj hget
    subst hrp
    cases root with
    | mk t a tx cs =>
      refine ⟨.mk t a tx (insIdx cs (i + 1) x), ?_, rfl⟩
      show (if i < cs.length then _ else _) = _
      simp only [E.children] at hlt
      rw [if_pos hlt]
  | cons j pp ih =>
    intro root par i x hget hlt
    cases root with
    | mk t a tx cs =>
      have hget2 : (cs.get? j).bind (fun c => getAt c pp) = some par := hget
      cases hc : cs.get? j with
      | none => rw [hc] at hget2; cases hget2
      | some c =>
        rw [hc] at hget2
        obtain ⟨c2, hc2, hc2get⟩ := ih c par i x hget2 hlt
        refine ⟨.mk t a tx (cs.set j c2), ?_, ?_⟩
        · rw [show (j :: pp) ++ [i] = j :: (pp ++ [i]) from rfl,
            insertAfterAt_cons t a tx cs j (pp ++ [i]) (by simp) x, hc]
          simp only [Option.some_bind]
          rw [hc2]
          rfl
        · show ((cs.set j c2).get? j).bind (fun c => getAt c pp) = _
          rw [get?_set_self cs j c c2 hc]
          exact hc2get

/-- C4: `CopyStaffTransform.modify` is the Part-staff copy block followed
by the Score-staff copy block on the mutated tree; each block fails
(raising, hence no output is written) whenever the pre-copy staff count
differs from `tgt` or the `src` staff's `id` attribute does not parse to
`src + 1`; and when those preconditions hold it inserts a deep copy of the
`src` staff, with its `id` relabelled to `tgt + 1`, immediately after the
source among its parent's children. -/
theorem claim4_copy_staff (src tgt : ℕ) (root : E) :
    (copyStaffModify src tgt root
      = (copyHalf "Part" src tgt root).bind (copyHalf "Score" src tgt)) ∧
    (∀ A : String, (dcPaths A "Staff" [] root).length ≠ tgt → copyHalf A src tgt root = none) ∧
    (∀ A : String, ∀ pth : List ℕ, ∀ n : E,
      (dcPaths A "Staff" [] root).get? src = some pth →
      getAt root pth = some n →
      pyInt (attrGet n "id") ≠ some ((src : ℤ) + 1) →
      copyHalf A src tgt root = none) ∧
    (∀ A : String, ∀ pp : List ℕ, ∀ i : ℕ, ∀ par n : E,
      (dcPaths A "Staff" [] root).get? src = some (pp ++ [i]) →
      getAt root pp = some par →
      par.children.get? i = some n →
      pyInt (attrGet n "id") = some ((src : ℤ) + 1) →
      (dcPaths A "Staff" [] root).length = tgt →
      ∃ root2, copyHalf A src tgt root = some root2 ∧
        getAt root2 pp = some (.mk par.tag par.attrs par.text
          (insIdx par.children (i + 1) (setAttr n "id" (toString ((tgt : ℤ) + 1)))))) := by
  refine ⟨rfl, ?_, ?_, ?_⟩
  · intro A hlen
    unfold copyHalf
    cases hp : (dcPaths A "Staff" [] root).get? src with
    | none => rfl
    | some pth =>
      simp only [Option.bind_eq_bind, Option.some_bind]
      cases hn : getAt root pth with
      | none => rfl
      | some n =>
        simp only [Option.some_bind]
        cases hid : pyInt (attrGet n "id") with
        | none => rfl
        | some idv =>
          simp only [Option.some_bind]
          by_cases hidv : idv = (src : ℤ) + 1
          · rw [if_pos hidv, if_neg hlen]
          · rw [if_neg hidv]
  · intro A pth n hp hn hid
    unfold copyHalf
    rw [hp]
    simp only [Option.bind_eq_bind, Option.some_bind]
    rw [hn]
    simp only [Option.some_bind]
    cases hidv : pyInt (attrGet n "id") with
    | none => rfl
    | some idv =>
      simp only [Option.some_bind]
      rw [if_neg (fun hcon => hid (by rw [hidv, hcon]))]
  · intro A pp i par n hp hpar hi hid hlen
    have hn : getAt root (pp ++ [i]) = some n := by
      rw [getAt_append, hpar, Option.some_bind]
      exact hi
    have hlt : i < par.children.length := by
      by_contra hcon
      rw [List.get?_eq_none.mpr (by omega)] at hi
      cases hi
    obtain ⟨root2, hins, hget2⟩ := insertAfterAt_spec pp root par i
      (setAttr n "id" (toString ((tgt : ℤ) + 1))) hpar hlt
    refine ⟨root2, ?_, hget2⟩
    unfold copyHalf
    rw [hp]
    simp only [Option.bind_eq_bind, Option.some_bind]
    rw [hn]
    simp only [Option.some_bind]
    rw [hid]
    simp only [Option.some_bind]
    rw [if_pos trivial, if_pos hlen]
    exact hins

/-- Concrete two-staff document for the staff-copy step. -/
def copyDoc : E :=
  .mk "museScore" [] none
    [.mk "Score" [] none
      [.mk "Part" [] none
        [.mk "Staff" [("id", "1")] none [], .mk "Staff" [("id", "2")] none []],
       .mk "Staff" [("id", "1")] none [],
       .mk "Staff" [("id", "2")] none []]]

def cpPar : E :=
  .mk "Part" [] none [.mk "Staff" [("id", "1")] none [], .mk "Staff" [("id", "2")] none []]

def cpN : E := .mk "Staff" [("id", "2")] none []

theorem claim4_witness :
    ∃ root2, copyHalf "Part" 1 2 copyDoc = some root2 ∧
      getAt root2 [0, 0] = some (.mk cpPar.tag cpPar.attrs cpPar.text
        (insIdx cpPar.children 2 (setAttr cpN "id" (toString ((2 : ℤ) + 1))))) :=
  (claim4_copy_staff 1 2 copyDoc).2.2.2 "Part" [0, 0] 1 cpPar cpN rfl rfl rfl (by decide) rfl

/-! ## Claim C5 -/

theorem scrubPS_eq (t : String) (im : Bool) (d : ℕ) (e : E) :
    scrubPS t im d e = .mk e.tag e.attrs e.text
      (scrubPSL t im (e.tag == "Part" && decide (1 ≤ d)) d e.children) := by
  cases e
  rfl

theorem scrubPS_tag (t : String) (im : Bool) (d : ℕ) (e : E) :
    (scrubPS t im d e).tag = e.tag := by
  rw [scrubPS_eq]
  rfl

theorem strayOK_eq (t : String) (pm im : Bool) (d : ℕ) (e : E) :
    strayOK t pm im d e
      = ((if e.tag == t then pm && e.children.isEmpty else true)
          && strayOKL t im (e.tag == "Part" && decide (1 ≤ d)) d e.children) := by
  cases e
  rfl

theorem strayOK_tag_ne (t : String) (im : Bool) (d : ℕ) (e : E)
    (h : strayOK t false im d e = true) : (e.tag == t) = false := by
  cases hx : (e.tag == t) with
  | false => rfl
  | true =>
    rw [strayOK_eq, hx] at h
    simp at h

theorem scrub_count_zero (t : String) : ∀ e : E, ∀ pm im : Bool, ∀ d : ℕ,
    strayOK t pm im d e = true → (e.tag == t) = false →
    countTag t (scrubPS t im d e) = 0 := by
  intro e
  induction e using E.myInduction with
  | h s a tx cs ihm =>
    intro pm im d hok htag
    rw [strayOK_eq] at hok
    simp only [E.tag, E.children] at hok htag
    rw [Bool.and_eq_true] at hok
    obtain ⟨hA, hB⟩ := hok
    have hl : ∀ cs2 : List E,
        (∀ c ∈ cs2, ∀ pm2 im2 : Bool, ∀ d2 : ℕ, strayOK t pm2 im2 d2 c = true →
          (c.tag == t) = false → countTag t (scrubPS t im2 d2 c) = 0) →
        strayOKL t im (s == "Part" && decide (1 ≤ d)) d cs2 = true →
        countTagL t (scrubPSL t im (s == "Part" && decide (1 ≤ d)) d cs2) = 0 := by
      intro cs2
      induction cs2 with
      | nil => intro _ _; rfl
      | cons c cs2 ih2 =>
        intro hmem hokL
        rw [show strayOKL t im (s == "Part" && decide (1 ≤ d)) d (c :: cs2)
            = (strayOK t im ((s == "Part" && decide (1 ≤ d)) && c.tag == "Staff") (d + 1) c
              && strayOKL t im (s == "Part" && decide (1 ≤ d)) d cs2) from rfl,
          Bool.and_eq_true] at hokL
        obtain ⟨hc, hrest⟩ := hokL
        show countTagL t ((if im && c.tag == t then []
          else [scrubPS t ((s == "Part" && decide (1 ≤ d)) && c.tag == "Staff") (d + 1) c])
          ++ scrubPSL t im (s == "Part" && decide (1 ≤ d)) d cs2) = 0
        rw [countTagL_append, ih2 (fun x hx => hmem x (List.mem_cons_of_mem c hx)) hrest]
        cases him : (im && c.tag == t) with
        | true => rw [if_pos rfl]; rfl
        | false =>
          rw [if_neg Bool.false_ne_true]
          cases hct : (c.tag == t) with
          | false =>
            show countTag t (scrubPS t ((s == "Part" && decide (1 ≤ d)) && c.tag == "Staff")
              (d + 1) c) + countTagL t [] + 0 = 0
            rw [hmem c (List.mem_cons_self c cs2) im _ (d + 1) hc hct]
            rfl
          | true =>
            have him2 : im = false := by
              cases hi : im with
              | false => rfl
              | true => rw [hi, hct] at him; cases him
            rw [him2] at hc
            rw [strayOK_tag_ne t _ (d + 1) c hc] at hct
            cases hct
    show (if s == t then 1 else 0)
        + countTagL t (scrubPSL t im (s == "Part" && decide (1 ≤ d)) d cs) = 0
    rw [htag, hl cs ihm hB]
    rfl

theorem count_scrub_le (t t2 : String) : ∀ e : E, ∀ im : Bool, ∀ d : ℕ,
    countTag t (scrubPS t2 im d e) ≤ countTag t e := by
  intro e
  induction e using E.myInduction with
  | h s a tx cs ihm =>
    intro im d
    have hl : ∀ cs2 : List E,
        (∀ c ∈ cs2, ∀ im2 : Bool, ∀ d2 : ℕ, countTag t (scrubPS t2 im2 d2 c) ≤ countTag t c) →
        countTagL t (scrubPSL t2 im (s == "Part" && decide (1 ≤ d)) d cs2) ≤ countTagL t cs2 := by
      intro cs2
      induction cs2 with
      | nil => intro _; exact le_refl 0
      | cons c cs2 ih2 =>
        intro hmem
        show countTagL t ((if im && c.tag == t2 then []
            else [scrubPS t2 ((s == "Part" && decide (1 ≤ d)) && c.tag == "Staff") (d + 1) c])
            ++ scrubPSL t2 im (s == "Part" && decide (1 ≤ d)) d cs2)
          ≤ countTag t c + countTagL t cs2
        rw [countTagL_append]
        have h2 := ih2 (fun x hx => hmem x (List.mem_cons_of_mem c hx))
        cases him : (im && c.tag == t2) with
        | true =>
          rw [if_pos rfl]
          show 0 + _ ≤ _
          omega
        | false =>
          rw [if_neg Bool.false_ne_true]
          have h1 := hmem c (List.mem_cons_self c cs2)
            ((s == "Part" && decide (1 ≤ d)) && c.tag == "Staff") (d + 1)
          show countTag t (scrubPS t2 _ (d + 1) c) + countTagL t [] + _ ≤ _
          have : countTagL t ([] : List E) = 0 := rfl
          omega
    rw [scrubPS_eq]
    show (if s == t then 1 else 0)
        + countTagL t (scrubPSL t2 im (s == "Part" && decide (1 ≤ d)) d cs)
      ≤ (if s == t then 1 else 0) + countTagL t cs
    have := hl cs ihm
    omega

theorem strayOK_scrub (t t2 : String) : ∀ e : E, ∀ pm im : Bool, ∀ d : ℕ,
    strayOK t pm im d e = true → strayOK t pm im d (scrubPS t2 im d e) = true := by
  intro e
  induction e using E.myInduction with
  | h s a tx cs ihm =>
    intro pm im d hok
    rw [strayOK_eq] at hok
    simp only [E.tag, E.children] at hok
    rw [Bool.and_eq_true] at hok
    obtain ⟨hA, hB⟩ := hok
    rw [scrubPS_eq]
    simp only [E.tag, E.attrs, E.text, E.children]
    rw [strayOK_eq]
    simp only [E.tag, E.children]
    rw [Bool.and_eq_true]
    constructor
    · by_cases hst : (s == t) = true
      · rw [if_pos hst] at hA ⊢
        rw [Bool.and_eq_true] at hA
        obtain ⟨hpm, hemp⟩ := hA
        have hnil : cs = [] := by
          cases cs with
          | nil => rfl
          | cons x xs => cases hemp
        subst hnil
        rw [hpm]
        rfl
      · rw [if_neg hst]
    · have hl : ∀ cs2 : List E,
          (∀ c ∈ cs2, ∀ pm2 im2 : Bool, ∀ d2 : ℕ, strayOK t pm2 im2 d2 c = true →
            strayOK t pm2 im2 d2 (scrubPS t2 im2 d2 c) = true) →
          strayOKL t im (s == "Part" && decide (1 ≤ d)) d cs2 = true →
          strayOKL t im (s == "Part" && decide (1 ≤ d)) d
            (scrubPSL t2 im (s == "Part" && decide (1 ≤ d)) d cs2) = true := by
        intro cs2
        induction cs2 with
        | nil => intro _ h; exact h
        | cons c cs2 ih2 =>
          intro hmem hokL
          rw [show strayOKL t im (s == "Part" && decide (1 ≤ d)) d (c :: cs2)
              = (strayOK t im ((s == "Part" && decide (1 ≤ d)) && c.tag == "Staff") (d + 1) c
                && strayOKL t im (s == "Part" && decide (1 ≤ d)) d cs2) from rfl,
            Bool.and_eq_true] at hokL
          obtain ⟨hc, hrest⟩ := hokL
          have h2 := ih2 (fun x hx => hmem x (List.mem_cons_of_mem c hx)) hrest
          show strayOKL t im (s == "Part" && decide (1 ≤ d)) d
            ((if im && c.tag == t2 then []
              else [scrubPS t2 ((s == "Part" && decide (1 ≤ d)) && c.tag == "Staff") (d + 1) c])
              ++ scrubPSL t2 im (s == "Part" && decide (1 ≤ d)) d cs2) = true
          cases him : (im && c.tag == t2) with
          | true =>
            rw [if_pos rfl]
            exact h2
          | false =>
            rw [if_neg Bool.false_ne_true]
            show (strayOK t im ((s == "Part" && decide (1 ≤ d))
                && (scrubPS t2 ((s == "Part" && decide (1 ≤ d)) && c.tag == "Staff") (d + 1) c).tag
                  == "Staff") (d + 1)
                (scrubPS t2 ((s == "Part" && decide (1 ≤ d)) && c.tag == "Staff") (d + 1) c)
              && strayOKL t im (s == "Part" && decide (1 ≤ d)) d
                (scrubPSL t2 im (s == "Part" && decide (1 ≤ d)) d cs2)) = true
            rw [Bool.and_eq_true]
            refine ⟨?_, h2⟩
            rw [scrubPS_tag]
            exact hmem c (List.mem_cons_self c cs2) im
              ((s == "Part" && decide (1 ≤ d)) && c.tag == "Staff") (d + 1) hc
      exact hl cs ihm hB

theorem scrubPSL_false (t : String) (isPart : Bool) (d : ℕ) : ∀ cs : List E,
    scrubPSL t false isPart d cs
      = cs.map (fun c => scrubPS t (isPart && c.tag == "Staff") (d + 1) c) := by
  intro cs
  induction cs with
  | nil => rfl
  | cons c cs ih =>
    show (if false && c.tag == t then [] else [scrubPS t (isPart && c.tag == "Staff") (d + 1) c])
        ++ scrubPSL t false isPart d cs = _
    rw [show (false && c.tag == t) = false from Bool.false_and _, if_neg Bool.false_ne_true, ih]
    rfl

theorem pathNM_cons (im : Bool) (d : ℕ) (e : E) (i : ℕ) (p : List ℕ) :
    pathNM im d e (i :: p)
      = (!im && (match e.children.get? i with
          | some c => pathNM ((e.tag == "Part" && decide (1 ≤ d)) && c.tag == "Staff") (d + 1) c p
          | none => false)) := rfl

theorem pathNM_isSome : ∀ (p : List ℕ) (e : E) (im : Bool) (d : ℕ),
    pathNM im d e p = true → (getAt e p).isSome = true := by
  intro p
  induction p with
  | nil => intro e im d _; rfl
  | cons i p ih =>
    intro e im d h
    rw [pathNM_cons, Bool.and_eq_true] at h
    obtain ⟨_, h2⟩ := h
    show ((e.children.get? i).bind (fun c => getAt c p)).isSome = true
    cases hc : e.children.get? i with
    | none => rw [hc] at h2; cases h2
    | some c =>
      rw [hc] at h2
      rw [Option.some_bind]
      exact ih c _ (d + 1) h2

theorem pathNM_scrub (t : String) : ∀ (p : List ℕ) (e : E) (im : Bool) (d : ℕ),
    pathNM im d e p = true → pathNM im d (scrubPS t im d e) p = true := by
  intro p
  induction p with
  | nil => intro e im d _; rfl
  | cons i p ih =>
    intro e im d h
    rw [pathNM_cons, Bool.and_eq_true] at h
    obtain ⟨him, h2⟩ := h
    have himf : im = false := by
      cases hi : im with
      | false => rfl
      | true => rw [hi] at him; cases him
    subst himf
    cases hc : e.children.get? i with
    | none => rw [hc] at h2; cases h2
    | some c =>
      rw [hc] at h2
      rw [pathNM_cons, Bool.and_eq_true]
      refine ⟨rfl, ?_⟩
      have hgc : (scrubPS t false d e).children.get? i
          = some (scrubPS t ((e.tag == "Part" && decide (1 ≤ d)) && c.tag == "Staff")
              (d + 1) c) := by
        rw [show (scrubPS t false d e).children
            = scrubPSL t false (e.tag == "Part" && decide (1 ≤ d)) d e.children from by
          rw [scrubPS_eq]
          rfl]
        rw [scrubPSL_false, List.get?_map, hc]
        rfl
      rw [hgc, scrubPS_tag t false d e]
      show pathNM ((e.tag == "Part" && decide (1 ≤ d))
          && (scrubPS t ((e.tag == "Part" && decide (1 ≤ d)) && c.tag == "Staff")
              (d + 1) c).tag == "Staff") (d + 1)
          (scrubPS t ((e.tag == "Part" && decide (1 ≤ d)) && c.tag == "Staff") (d + 1) c) p = true
      rw [scrubPS_tag]
      exact ih c _ (d + 1) h2

theorem countTagL_listModify (t : String) (f : E → E) : ∀ (cs : List E) (i : ℕ) (c : E),
    cs.get? i = some c →
    countTagL t (listModify cs i f) + countTag t c = countTagL t cs + countTag t (f c) := by
  intro cs
  induction cs with
  | nil => intro i c h; cases i <;> cases h
  | cons x cs ih =>
    intro i c h
    cases i with
    | zero =>
      cases h
      show countTag t (f x) + countTagL t cs + countTag t x
          = countTag t x + countTagL t cs + countTag t (f x)
      omega
    | succ i =>
      have := ih i c h
      show countTag t x + countTagL t (listModify cs i f) + countTag t c
          = countTag t x + countTagL t cs + countTag t (f c)
      omega

theorem countTag_append_valid (t : String) (x : E) : ∀ (p : List ℕ) (r : E),
    (getAt r p).isSome = true →
    countTag t (appendChildAt r p x) = countTag t r + countTag t x := by
  intro p
  induction p with
  | nil =>
    intro r _
    cases r with
    | mk s a tx cs =>
      show (if s == t then 1 else 0) + countTagL t (cs ++ [x])
          = (if s == t then 1 else 0) + countTagL t cs + countTag t x
      rw [countTagL_append]
      show _ + (countTagL t cs + (countTag t x + 0)) = _
      omega
  | cons i p ih =>
    intro r hv
    cases r with
    | mk s a tx cs =>
      have hv2 : ((cs.get? i).bind (fun c => getAt c p)).isSome = true := hv
      cases hc : cs.get? i with
      | none => rw [hc] at hv2; cases hv2
      | some c =>
        rw [hc, Option.some_bind] at hv2
        have hrec := ih c hv2
        have hmod : countTagL t (listModify cs i (fun c => appendChildAt c p x)) + countTag t c
            = countTagL t cs + countTag t (appendChildAt c p x) :=
          countTagL_listModify t (fun c => appendChildAt c p x) cs i c hc
        show (if s == t then 1 else 0)
            + countTagL t (listModify cs i (fun c => appendChildAt c p x))
          = (if s == t then 1 else 0) + countTagL t cs + countTag t x
        omega

theorem listModify_get?_ne {α : Type} (f : α → α) : ∀ (l : List α) (i j : ℕ), i ≠ j →
    (listModify l i f).get? j = l.get? j := by
  intro l
  induction l with
  | nil => intro i j _; cases i <;> rfl
  | cons a l ih =>
    intro i j hne
    cases i with
    | zero =>
      cases j with
      | zero => exact absurd rfl hne
      | succ j => rfl
    | succ i =>
      cases j with
      | zero => rfl
      | succ j => exact ih i j (fun hcon => hne (by rw [hcon]))

theorem appendChildAt_isSome (x : E) : ∀ (q p : List ℕ) (r : E),
    (getAt r q).isSome = true → (getAt (appendChildAt r p x) q).isSome = true := by
  intro q
  induction q with
  | nil => intro p r _; rfl
  | cons j q ih =>
    intro p r hv
    have hv2 : ((r.children.get? j).bind (fun c => getAt c q)).isSome = true := hv
    cases hc : r.children.get? j with
    | none => rw [hc] at hv2; cases hv2
    | some c =>
      rw [hc, Option.some_bind] at hv2
      cases p with
      | nil =>
        cases r with
        | mk s a tx cs =>
          have hc2 : cs.get? j = some c := hc
          show (((cs ++ [x]).get? j).bind (fun c => getAt c q)).isSome = true
          have hjlen : j < cs.length := by
            by_contra hcon
            rw [List.get?_eq_none.mpr (by omega)] at hc2
            cases hc2
          rw [List.get?_append hjlen, hc2, Option.some_bind]
          exact hv2
      | cons i p =>
        cases r with
        | mk s a tx cs =>
          have hc2 : cs.get? j = some c := hc
          show (((listModify cs i (fun c => appendChildAt c p x)).get? j).bind
            (fun c => getAt c q)).isSome = true
          by_cases hij : i = j
          · subst hij
            rw [listModify_get?, hc2, Option.map_some', Option.some_bind]
            exact ih p c hv2
          · rw [listModify_get?_ne _ cs i j hij, hc2, Option.some_bind]
            exact hv2

theorem fold_append_count (t : String) (x : E) : ∀ (ps : List (List ℕ)) (r : E),
    (∀ p ∈ ps, (getAt r p).isSome = true) →
    countTag t (ps.foldl (fun r p => appendChildAt r p x) r)
      = countTag t r + ps.length * countTag t x := by
  intro ps
  induction ps with
  | nil => intro r _; simp
  | cons p ps ih =>
    intro r hall
    rw [List.foldl_cons]
    rw [ih (appendChildAt r p x)
      (fun q hq => appendChildAt_isSome x q p r (hall q (List.mem_cons_of_mem p hq)))]
    rw [countTag_append_valid t x p r (hall p (List.mem_cons_self p ps))]
    rw [List.length_cons, Nat.succ_mul]
    omega

theorem mem_dropLast {α : Type} : ∀ (l : List α) (a : α), a ∈ l.dropLast → a ∈ l := by
  intro l
  induction l with
  | nil => intro a h; cases h
  | cons x l ih =>
    intro a h
    cases l with
    | nil => cases h
    | cons y l =>
      rcases List.mem_cons.mp h with rfl | h2
      · exact List.mem_cons_self _ _
      · exact List.mem_cons_of_mem x (ih a h2)

/-- C5 (amended): on a document with at least one `.//Part/Staff` match in
which every `bracket` and every `barLineSpan` element is a childless child
of a Part-staff match (and the root is no such marker), and in which no
Part-staff match lies on the path of another (no nesting), running
FixBrackets leaves exactly one bracket element in the whole document and
exactly N-1 barline-span elements, all pre-existing markers having been
removed. -/
theorem claim5_fix_brackets (root : E)
    (hne : dcPaths "Part" "Staff" [] root ≠ [])
    (hbls : strayOK "barLineSpan" false false 0 root = true)
    (hbr : strayOK "bracket" false false 0 root = true)
    (hnm : ∀ p ∈ dcPaths "Part" "Staff" [] root, pathNM false 0 root p = true) :
    countTag "bracket" (fixBracketsModify root) = 1 ∧
    countTag "barLineSpan" (fixBracketsModify root)
      = (dcPaths "Part" "Staff" [] root).length - 1 := by
  have hfix : fixBracketsModify root
      = ((dcPaths "Part" "Staff" [] root).dropLast).foldl
          (fun r p => appendChildAt r p barLineSpanNode)
          (((dcPaths "Part" "Staff" [] root).take 1).foldl
            (fun r p => appendChildAt r p (bracketNode (dcPaths "Part" "Staff" [] root).length))
            (scrubPS "bracket" false 0 (scrubPS "barLineSpan" false 0 root))) := rfl
  have htagbls : (root.tag == "barLineSpan") = false := strayOK_tag_ne _ _ _ root hbls
  have htagbr : (root.tag == "bracket") = false := strayOK_tag_ne _ _ _ root hbr
  have c1 : countTag "barLineSpan" (scrubPS "barLineSpan" false 0 root) = 0 :=
    scrub_count_zero "barLineSpan" root false false 0 hbls htagbls
  have c2 : countTag "barLineSpan"
      (scrubPS "bracket" false 0 (scrubPS "barLineSpan" false 0 root)) = 0 := by
    have hle := count_scrub_le "barLineSpan" "bracket"
      (scrubPS "barLineSpan" false 0 root) false 0
    omega
  have hbr1 : strayOK "bracket" false false 0 (scrubPS "barLineSpan" false 0 root) = true :=
    strayOK_scrub "bracket" "barLineSpan" root false false 0 hbr
  have htagbr1 : ((scrubPS "barLineSpan" false 0 root).tag == "bracket") = false := by
    rw [scrubPS_tag]
    exact htagbr
  have c3 : countTag "bracket"
      (scrubPS "bracket" false 0 (scrubPS "barLineSpan" false 0 root)) = 0 :=
    scrub_count_zero "bracket" (scrubPS "barLineSpan" false 0 root) false false 0 hbr1 htagbr1
  have hvalid : ∀ p ∈ dcPaths "Part" "Staff" [] root,
      (getAt (scrubPS "bracket" false 0 (scrubPS "barLineSpan" false 0 root)) p).isSome = true := by
    intro p hp
    exact pathNM_isSome p _ false 0
      (pathNM_scrub "bracket" p (scrubPS "barLineSpan" false 0 root) false 0
        (pathNM_scrub "barLineSpan" p root false 0 (hnm p hp)))
  obtain ⟨p0, rest, hcons⟩ : ∃ p0 rest, dcPaths "Part" "Staff" [] root = p0 :: rest := by
    cases hq : dcPaths "Part" "Staff" [] root with
    | nil => exact absurd hq hne
    | cons a b => exact ⟨a, b, rfl⟩
  have htake : (dcPaths "Part" "Staff" [] root).take 1 = [p0] := by
    rw [hcons]
    rfl
  have hr3 : ((dcPaths "Part" "Staff" [] root).take 1).foldl
      (fun r p => appendChildAt r p (bracketNode (dcPaths "Part" "Staff" [] root).length))
      (scrubPS "bracket" false 0 (scrubPS "barLineSpan" false 0 root))
    = appendChildAt (scrubPS "bracket" false 0 (scrubPS "barLineSpan" false 0 root)) p0
        (bracketNode (dcPaths "Part" "Staff" [] root).length) := by
    rw [htake, List.foldl_cons, List.foldl_nil]
  have hp0mem : p0 ∈ dcPaths "Part" "Staff" [] root := by
    rw [hcons]
    exact List.mem_cons_self _ _
  have hcntBr3 : countTag "bracket" (((dcPaths "Part" "Staff" [] root).take 1).foldl
      (fun r p => appendChildAt r p (bracketNode (dcPaths "Part" "Staff" [] root).length))
      (scrubPS "bracket" false 0 (scrubPS "barLineSpan" false 0 root))) = 1 := by
    rw [hr3, countTag_append_valid _ _ p0 _ (hvalid p0 hp0mem), c3]
    rfl
  have hcntBls3 : countTag "barLineSpan" (((dcPaths "Part" "Staff" [] root).take 1).foldl
      (fun r p => appendChildAt r p (bracketNode (dcPaths "Part" "Staff" [] root).length))
      (scrubPS "bracket" false 0 (scrubPS "barLineSpan" false 0 root))) = 0 := by
    rw [hr3, countTag_append_valid _ _ p0 _ (hvalid p0 hp0mem), c2]
    rfl
  have hvalid3 : ∀ p ∈ (dcPaths "Part" "Staff" [] root).dropLast,
      (getAt (((dcPaths "Part" "Staff" [] root).take 1).foldl
        (fun r p => appendChildAt r p (bracketNode (dcPaths "Part" "Staff" [] root).length))
        (scrubPS "bracket" false 0 (scrubPS "barLineSpan" false 0 root))) p).isSome = true := by
    intro p hp
    rw [hr3]
    exact appendChildAt_isSome _ p p0 _ (hvalid p (mem_dropLast _ p hp))
  constructor
  · rw [hfix, fold_append_count _ _ _ _ hvalid3, hcntBr3]
    rw [show countTag "bracket" barLineSpanNode = 0 from rfl]
    omega
  · rw [hfix, fold_append_count _ _ _ _ hvalid3, hcntBls3]
    rw [show countTag "barLineSpan" barLineSpanNode = 1 from rfl, List.length_dropLast]
    omega

/-- A document with one Part-staff and a pre-existing bracket element that
is not a child of a Part-staff. -/
def strayBracketDoc : E :=
  .mk "museScore" [] none
    [.mk "Part" [] none [.mk "Staff" [("id", "1")] none []],
     .mk "bracket" [] none []]

/-- C5 counterexample: on a document with N = 1 Part-staves but a bracket
outside the Part-staves, FixBrackets leaves 2 bracket elements in the
document, not 1 — only the per-staff markers are scrubbed. -/
theorem claim5_cex :
    (dcPaths "Part" "Staff" [] strayBracketDoc).length = 1 ∧
    countTag "bracket" (fixBracketsModify strayBracketDoc) = 2 ∧ ¬ (2 = 1) :=
  ⟨rfl, rfl, by decide⟩

/-- Concrete three-staff document with pre-existing per-staff markers. -/
def fbDoc : E :=
  .mk "museScore" [] none
    [.mk "Score" [] none
      [.mk "Part" [] none
        [.mk "Staff" [("id", "1")] none [.mk "bracket" [] none []],
         .mk "Staff" [("id", "2")] none [.mk "barLineSpan" [] (some "1") []],
         .mk "Staff" [("id", "3")] none []]]]

theorem claim5_witness :
    countTag "bracket" (fixBracketsModify fbDoc) = 1 ∧
    countTag "barLineSpan" (fixBracketsModify fbDoc)
      = (dcPaths "Part" "Staff" [] fbDoc).length - 1 :=
  claim5_fix_brackets fbDoc (by decide) rfl rfl (by decide)
